import Mathlib

/-!
Verification of the link-graph subsystem of realm-core (backlink cells,
link-list views and the list-view accessor registry), shallowly embedded from
`src/realm/column_backlink.cpp`, `src/realm/link_view.cpp`,
`src/realm/column_linklist.cpp`, `src/realm/column_link.hpp` and
`src/tightdb/link_view.hpp`.
-/

namespace RealmLink

/-! ## Backlink cells (`column_backlink.cpp`)

A backlink cell is one slot of the backlink column: a 64-bit word `word`
(`IntegerColumn::get_uint(row_ndx)`) together with the contents of the backing
`IntegerColumn` (B+-tree of origin rows) when the word is a ref.  `store = none`
models "no backing store allocated"; a deallocated store (`destroy()`) is again
`none`.  Row keys/indices are modelled as `Nat` (the row-index domain keeps them
below `2^63`, see the tag discipline). -/

/-- The modulus of 64-bit cell words. -/
def U64 : Nat := 2 ^ 64

structure BacklinkCell where
  word : Nat
  store : Option (List Nat)
deriving Repr, DecidableEq

/-- A freshly created cell: `IntegerColumn` slots start as 0 and no backing
store exists. -/
def emptyBacklinkCell : BacklinkCell := { word := 0, store := none }

/-- The tagged-inline encoding `uint64_t(origin) << 1 | 1` of a single origin
row (64-bit arithmetic). -/
def tagInline (o : Nat) : Nat := (2 * o + 1) % U64

/-- `IntegerColumn::find_first`: index of the first occurrence of `v`, or
`none` (`realm::not_found`). -/
def findFirst (l : List Nat) (v : Nat) : Option Nat :=
  match l with
  | [] => none
  | x :: xs => if x = v then some 0 else (findFirst xs v).map (· + 1)

/-- `BacklinkColumn::add_backlink` (column_backlink.cpp:32), restricted to the
affected cell.  `freshRef` is the ref returned by `IntegerColumn::create` when
the cell is promoted from tagged-inline to store form (refs are nonzero and
8-byte aligned, hence even; that is a hypothesis of the theorems). -/
def BacklinkCell.add_backlink (c : BacklinkCell) (origin freshRef : Nat) : BacklinkCell :=
  if c.word = 0 then
    -- a backlink list of size 1 is stored as a single tagged value
    { c with word := tagInline origin }
  else if c.word % 2 = 1 then
    -- grow from 1 to 2: create a backing column seeded with the inline value,
    -- store its ref in the cell, and append the new origin
    { word := freshRef, store := some [c.word / 2, origin] }
  else
    -- already a list: append
    { c with store := some ((c.store.getD []) ++ [origin]) }

/-- `BacklinkColumn::remove_one_backlink` (column_backlink.cpp:103), restricted
to the affected cell.  `none` models a `REALM_ASSERT` failure (no such
backlink).  When the backing list drops to one element it is destroyed and the
cell collapses back to the tagged-inline form. -/
def BacklinkCell.remove_one_backlink (c : BacklinkCell) (origin : Nat) : Option BacklinkCell :=
  if c.word = 0 then none
  else if c.word % 2 = 1 then
    if c.word / 2 = origin then some { c with word := 0 } else none
  else
    match findFirst (c.store.getD []) origin with
    | none => none
    | some i =>
      let l := (c.store.getD []).eraseIdx i
      if l.length = 1 then
        -- `backlink_list.get_uint(0)`, then destroy the store and inline the value
        some { word := tagInline (l.getD 0 0), store := none }
      else
        some { c with store := some l }

/-- `BacklinkColumn::get_backlink_count` (column_backlink.cpp:63). -/
def BacklinkCell.get_backlink_count (c : BacklinkCell) : Nat :=
  if c.word = 0 then 0
  else if c.word % 2 = 1 then 1
  else (c.store.getD []).length

/-- One cell-level backlink operation; `add` carries the allocator-chosen ref
used if the cell is promoted to store form. -/
inductive BLOp where
  | add (origin freshRef : Nat)
  | remove (origin : Nat)
deriving Repr, DecidableEq

def BLOp.apply (c : BacklinkCell) : BLOp → Option BacklinkCell
  | .add o r => some (c.add_backlink o r)
  | .remove o => c.remove_one_backlink o

def runBacklinkOps (c : BacklinkCell) : List BLOp → Option BacklinkCell
  | [] => some c
  | op :: ops =>
    match op.apply c with
    | none => none
    | some c' => runBacklinkOps c' ops

/-- The abstract effect of an operation on the multiset of origin rows. -/
def BLOp.applyMultiset (m : Multiset Nat) : BLOp → Multiset Nat
  | .add o _ => o ::ₘ m
  | .remove o => m.erase o

def runMultisetOps (m : Multiset Nat) : List BLOp → Multiset Nat
  | [] => m
  | op :: ops => runMultisetOps (op.applyMultiset m) ops

/-- Well-formed inputs: origin rows fit in 63 bits (row-index domain) and
allocator refs are nonzero and even (8-byte aligned). -/
def BLOp.WF : BLOp → Prop
  | .add o r => o < 2 ^ 63 ∧ r ≠ 0 ∧ r % 2 = 0
  | .remove _ => True

instance : DecidablePred BLOp.WF := fun op => by
  cases op <;> simp only [BLOp.WF] <;> infer_instance

/-- The on-disk representation invariant of a backlink cell holding the
multiset `m` of origin rows: sentinel 0 when empty, tagged inline for a
singleton, an (even, nonzero) ref to a backing store of all origins when
`2 ≤ |m|`. -/
def BacklinkRepr (c : BacklinkCell) (m : Multiset Nat) : Prop :=
  (c.word = 0 ∧ c.store = none ∧ m = 0)
  ∨ (∃ o, o < 2 ^ 63 ∧ c.word = 2 * o + 1 ∧ c.store = none ∧ m = {o})
  ∨ (∃ l : List Nat, c.word ≠ 0 ∧ c.word % 2 = 0 ∧ c.store = some l ∧
      2 ≤ l.length ∧ (∀ x ∈ l, x < 2 ^ 63) ∧ m = ↑l)

/-! ## LinkView (`link_view.cpp`, accessors from `tightdb/link_view.hpp`)

A `LinkView` is a live handle onto one link-list cell.  The state gathers the
pieces of the program state that the cell-level operations read and write: the
attached flag, the origin row index (`get_origin_row_index`), the parent cell
word and the backing `IntegerColumn` contents (`m_row_indexes`; `none` models a
degenerate cell with no backing store), the backlink column of the target table
for this origin column (one `BacklinkCell` per target row, so
`backlinks.length` is the target table's size), the column's `m_weak_links`
flag, and whether a `Replication` sink is installed.

The configuration modelled is a single link-list column whose target table has
no outgoing link columns of its own, so a cascade seeded on the target table
removes exactly the seeded row.  `Table::cascade_break_backlinks_to` and
`Table::remove_backlink_broken_rows` (table.cpp, not among the sources under
study) are modelled from the spec: a cascade run seeded with one target row
whose backlink count is zero removes that row; the removal is recorded as a
`cascadeRowRemoval` event. -/

structure LinkViewState where
  attached : Bool
  originRow : Nat
  cellWord : Nat
  rowIndexes : Option (List Nat)
  backlinks : List BacklinkCell
  weakLinks : Bool
  replInstalled : Bool
deriving Repr, DecidableEq

/-- Observable actions of a `LinkView` mutation, in program order: calls into
the `Replication` sink, mutations of the backing store / parent cell, backlink
bookkeeping, and cascade row removals. -/
inductive LVEvent where
  | replListInsert (ndx target : Nat)
  | replListSet (ndx target : Nat)
  | replListErase (ndx : Nat)
  | replListMove (fromNdx toNdx : Nat)
  | replListSwap (ndx1 ndx2 : Nat)
  | replListClear
  | replListNullify (ndx : Nat)
  | storeCreate (ref : Nat)
  | storeInsert (ndx target : Nat)
  | storeSet (ndx target : Nat)
  | storeErase (ndx : Nat)
  | storeDestroy
  | parentRefSet (v : Nat)
  | backlinkAdd (target origin : Nat)
  | backlinkRemove (target origin : Nat)
  | cascadeRowRemoval (target : Nat)
deriving Repr, DecidableEq

/-- Calls into the `Replication` sink. -/
def LVEvent.isRepl : LVEvent → Bool
  | .replListInsert _ _ => true
  | .replListSet _ _ => true
  | .replListErase _ => true
  | .replListMove _ _ => true
  | .replListSwap _ _ => true
  | .replListClear => true
  | .replListNullify _ => true
  | _ => false

/-- Backlink updates and forward-store updates (the bookkeeping). -/
def LVEvent.isBookkeeping : LVEvent → Bool
  | .storeCreate _ => true
  | .storeInsert _ _ => true
  | .storeSet _ _ => true
  | .storeErase _ => true
  | .storeDestroy => true
  | .parentRefSet _ => true
  | .backlinkAdd _ _ => true
  | .backlinkRemove _ _ => true
  | _ => false

/-- The replication event (if any) precedes every bookkeeping event of the
trace. -/
def replPrecedesBookkeeping (evs : List LVEvent) : Bool :=
  match evs.findIdx? (fun e => e.isRepl) 0 with
  | none => true
  | some i => (evs.take i).all (fun e => !e.isBookkeeping)

/-- All bookkeeping events of the trace precede the replication event (if
any). -/
def bookkeepingPrecedesRepl (evs : List LVEvent) : Bool :=
  match evs.findIdx? (fun e => e.isRepl) 0 with
  | none => true
  | some i => (evs.drop (i + 1)).all (fun e => !e.isBookkeeping)

/-- Errors: `LogicError::detached_accessor`, `LogicError::link_index_out_of_range`
thrown by move/swap, and `REALM_ASSERT` failures elsewhere (which terminate the
program rather than raising a catchable error). -/
inductive LVError where
  | detachedAccessor
  | linkIndexOutOfRange
  | assertionFailed
deriving Repr, DecidableEq

deriving instance DecidableEq for Except

abbrev LVResult := Except LVError (LinkViewState × List LVEvent)

/-- `BacklinkColumn::add_backlink` on the backlink column: update the cell of
`target`. -/
def addBacklinkAt (bs : List BacklinkCell) (target origin ref : Nat) : List BacklinkCell :=
  bs.set target ((bs.getD target emptyBacklinkCell).add_backlink origin ref)

/-- `BacklinkColumn::remove_one_backlink` on the backlink column; `none` is an
assertion failure. -/
def removeBacklinkAt (bs : List BacklinkCell) (target origin : Nat) :
    Option (List BacklinkCell) :=
  match (bs.getD target emptyBacklinkCell).remove_one_backlink origin with
  | none => none
  | some c => some (bs.set target c)

/-- `LinkView::do_insert` (link_view.cpp:79).  `storeRef` is the ref returned
by `IntegerColumn::create` if the degenerate cell must be realized; `blRef` the
ref used if `add_backlink` promotes the target's backlink cell to store
form. -/
def LinkView.do_insert (s : LinkViewState) (linkNdx target storeRef blRef : Nat) : LVResult :=
  if ¬ s.attached then .error .assertionFailed
  else if ¬ (s.rowIndexes.isSome = true ∨ linkNdx = 0) then .error .assertionFailed
  else if ¬ (s.rowIndexes.isSome = false ∨ linkNdx ≤ (s.rowIndexes.getD []).length) then
    .error .assertionFailed
  else if ¬ (target < s.backlinks.length) then .error .assertionFailed
  else
    let originRow := s.originRow
    -- if there are no links yet, we have to create the list and register its
    -- ref with the parent cell
    let creation : LinkViewState × List LVEvent :=
      match s.rowIndexes with
      | none => ({ s with cellWord := storeRef, rowIndexes := some [] },
                 [LVEvent.storeCreate storeRef, LVEvent.parentRefSet storeRef])
      | some _ => (s, [])
    let s1 := creation.1
    let l := s1.rowIndexes.getD []
    let s2 := { s1 with rowIndexes := some (l.take linkNdx ++ target :: l.drop linkNdx) }
    let s3 := { s2 with backlinks := addBacklinkAt s2.backlinks target originRow blRef }
    .ok (s3, creation.2 ++ [LVEvent.storeInsert linkNdx target,
                            LVEvent.backlinkAdd target originRow])

/-- `LinkView::insert` (link_view.cpp:71): perform `do_insert`, then report to
the replication sink. -/
def LinkView.insert (s : LinkViewState) (linkNdx target storeRef blRef : Nat) : LVResult :=
  match LinkView.do_insert s linkNdx target storeRef blRef with
  | .error e => .error e
  | .ok (s', evs) =>
    if s'.replInstalled then .ok (s', evs ++ [LVEvent.replListInsert linkNdx target])
    else .ok (s', evs)

/-- `LinkView::do_set` (link_view.cpp:134); also returns the old target. -/
def LinkView.do_set (s : LinkViewState) (linkNdx target blRef : Nat) :
    Except LVError (LinkViewState × List LVEvent × Nat) :=
  let l := s.rowIndexes.getD []
  let old := l.getD linkNdx 0
  match removeBacklinkAt s.backlinks old s.originRow with
  | none => .error .assertionFailed
  | some bs1 =>
    let bs2 := addBacklinkAt bs1 target s.originRow blRef
    .ok ({ s with backlinks := bs2, rowIndexes := some (l.set linkNdx target) },
         ([LVEvent.backlinkRemove old s.originRow, LVEvent.backlinkAdd target s.originRow,
           LVEvent.storeSet linkNdx target], old))

/-- `LinkView::set` (link_view.cpp:103): assertions, replication, `do_set`,
then the strong-link cascade check on the old target. -/
def LinkView.set (s : LinkViewState) (linkNdx target blRef : Nat) : LVResult :=
  if ¬ s.attached then .error .assertionFailed
  else if ¬ (s.rowIndexes.isSome = true ∧ linkNdx < (s.rowIndexes.getD []).length) then
    .error .assertionFailed
  else if ¬ (target < s.backlinks.length) then .error .assertionFailed
  else
    let evs0 := if s.replInstalled then [LVEvent.replListSet linkNdx target] else []
    match LinkView.do_set s linkNdx target blRef with
    | .error e => .error e
    | .ok (s1, evs1, old) =>
      if s1.weakLinks then .ok (s1, evs0 ++ evs1)
      else if (s1.backlinks.getD old emptyBacklinkCell).get_backlink_count > 0 then
        .ok (s1, evs0 ++ evs1)
      else
        .ok (s1, evs0 ++ evs1 ++ [LVEvent.cascadeRowRemoval old])

/-- `LinkView::do_remove` (link_view.cpp:228); also returns the old target. -/
def LinkView.do_remove (s : LinkViewState) (linkNdx : Nat) :
    Except LVError (LinkViewState × List LVEvent × Nat) :=
  let l := s.rowIndexes.getD []
  let old := l.getD linkNdx 0
  match removeBacklinkAt s.backlinks old s.originRow with
  | none => .error .assertionFailed
  | some bs1 =>
    .ok ({ s with backlinks := bs1, rowIndexes := some (l.eraseIdx linkNdx) },
         ([LVEvent.backlinkRemove old s.originRow, LVEvent.storeErase linkNdx], old))

/-- `LinkView::remove` (link_view.cpp:198). -/
def LinkView.remove (s : LinkViewState) (linkNdx : Nat) : LVResult :=
  if ¬ s.attached then .error .assertionFailed
  else if ¬ (s.rowIndexes.isSome = true ∧ linkNdx < (s.rowIndexes.getD []).length) then
    .error .assertionFailed
  else
    let evs0 := if s.replInstalled then [LVEvent.replListErase linkNdx] else []
    match LinkView.do_remove s linkNdx with
    | .error e => .error e
    | .ok (s1, evs1, old) =>
      if s1.weakLinks then .ok (s1, evs0 ++ evs1)
      else if (s1.backlinks.getD old emptyBacklinkCell).get_backlink_count > 0 then
        .ok (s1, evs0 ++ evs1)
      else
        .ok (s1, evs0 ++ evs1 ++ [LVEvent.cascadeRowRemoval old])

/-- `LinkView::move` (link_view.cpp:147): throws on detached views and bad
indices; the replication event is reported after the reorder. -/
def LinkView.move (s : LinkViewState) (fromNdx toNdx : Nat) : LVResult :=
  if ¬ s.attached then .error .detachedAccessor
  else if ¬ (s.rowIndexes.isSome = true ∧ fromNdx < (s.rowIndexes.getD []).length
      ∧ toNdx < (s.rowIndexes.getD []).length) then .error .linkIndexOutOfRange
  else if fromNdx = toNdx then .ok (s, [])
  else
    let l := s.rowIndexes.getD []
    let target := l.getD fromNdx 0
    let l1 := l.eraseIdx fromNdx
    let l2 := l1.take toNdx ++ target :: l1.drop toNdx
    let evs := [LVEvent.storeErase fromNdx, LVEvent.storeInsert toNdx target]
    let evs := if s.replInstalled then evs ++ [LVEvent.replListMove fromNdx toNdx] else evs
    .ok ({ s with rowIndexes := some l2 }, evs)

/-- `LinkView::swap` (link_view.cpp:170): throws on detached views and bad
indices, canonicalizes the indices so the first is smaller, and reports to the
replication sink after the exchange. -/
def LinkView.swap (s : LinkViewState) (ndx1 ndx2 : Nat) : LVResult :=
  if ¬ s.attached then .error .detachedAccessor
  else if ¬ (s.rowIndexes.isSome = true ∧ ndx1 < (s.rowIndexes.getD []).length
      ∧ ndx2 < (s.rowIndexes.getD []).length) then .error .linkIndexOutOfRange
  else if ndx1 = ndx2 then .ok (s, [])
  else
    let i := min ndx1 ndx2
    let j := max ndx1 ndx2
    let l := s.rowIndexes.getD []
    let vi := l.getD i 0
    let vj := l.getD j 0
    let l1 := (l.set i vj).set j vi
    let evs := [LVEvent.storeSet i vj, LVEvent.storeSet j vi]
    let evs := if s.replInstalled then evs ++ [LVEvent.replListSwap i j] else evs
    .ok ({ s with rowIndexes := some l1 }, evs)

/-- Remove one backlink per stored link (the loop of
`LinkView::do_clear` when reciprocal backlinks are not already broken). -/
def removeAllBacklinks (bs : List BacklinkCell) (targets : List Nat) (origin : Nat) :
    Option (List BacklinkCell × List LVEvent) :=
  match targets with
  | [] => some (bs, [])
  | t :: ts =>
    match removeBacklinkAt bs t origin with
    | none => none
    | some bs1 =>
      match removeAllBacklinks bs1 ts origin with
      | none => none
      | some (bs2, evs) => some (bs2, LVEvent.backlinkRemove t origin :: evs)

/-- `LinkView::do_clear` (link_view.cpp:288): optionally remove the reciprocal
backlinks, then destroy the backing store and zero the parent cell. -/
def LinkView.do_clear (s : LinkViewState) (brokenReciprocalBacklinks : Bool) :
    Except LVError (LinkViewState × List LVEvent) :=
  match s.rowIndexes with
  | some l =>
    if ¬ brokenReciprocalBacklinks then
      match removeAllBacklinks s.backlinks l s.originRow with
      | none => .error .assertionFailed
      | some (bs, evs) =>
        .ok ({ s with backlinks := bs, rowIndexes := none, cellWord := 0 },
             evs ++ [LVEvent.storeDestroy, LVEvent.parentRefSet 0])
    else
      .ok ({ s with rowIndexes := none, cellWord := 0 },
           [LVEvent.storeDestroy, LVEvent.parentRefSet 0])
  | none =>
    -- `m_row_indexes.destroy()` is a no-op on an unattached column
    .ok ({ s with cellWord := 0 }, [LVEvent.parentRefSet 0])

/-- `std::upper_bound` insertion of a row into the sorted `CascadeState::rows`
list. -/
def sortedInsertNat (rows : List Nat) (t : Nat) : List Nat :=
  rows.takeWhile (fun x => x ≤ t) ++ t :: rows.dropWhile (fun x => x ≤ t)

/-- The strong-link loop of `LinkView::clear` (link_view.cpp:262): per link,
remove the backlink, and when the target's count drops to zero schedule it (in
sorted position, asserting it is not already scheduled). -/
def clearStrongLoop (bs : List BacklinkCell) (targets : List Nat) (origin : Nat)
    (rows : List Nat) : Option (List BacklinkCell × List LVEvent × List Nat) :=
  match targets with
  | [] => some (bs, [], rows)
  | t :: ts =>
    match removeBacklinkAt bs t origin with
    | none => none
    | some bs1 =>
      if (bs1.getD t emptyBacklinkCell).get_backlink_count > 0 then
        match clearStrongLoop bs1 ts origin rows with
        | none => none
        | some x => some (x.1, LVEvent.backlinkRemove t origin :: x.2.1, x.2.2)
      else if t ∈ rows then none
      else
        match clearStrongLoop bs1 ts origin (sortedInsertNat rows t) with
        | none => none
        | some x => some (x.1, LVEvent.backlinkRemove t origin :: x.2.1, x.2.2)

/-- `LinkView::clear` (link_view.cpp:240): early return on degenerate cells,
replication, then either the weak-link path (`do_clear(false)`) or the
strong-link cascade path. -/
def LinkView.clear (s : LinkViewState) : LVResult :=
  if ¬ s.attached then .error .assertionFailed
  else match s.rowIndexes with
  | none => .ok (s, [])
  | some l =>
    let evs0 := if s.replInstalled then [LVEvent.replListClear] else []
    if s.weakLinks then
      match LinkView.do_clear s false with
      | .error e => .error e
      | .ok (s1, evs1) => .ok (s1, evs0 ++ evs1)
    else
      match clearStrongLoop s.backlinks l s.originRow [] with
      | none => .error .assertionFailed
      | some (bs, evs1, rows) =>
        match LinkView.do_clear { s with backlinks := bs } true with
        | .error e => .error e
        | .ok (s2, evs2) =>
          .ok (s2, evs0 ++ evs1 ++ evs2 ++ rows.map LVEvent.cascadeRowRemoval)

/-- `LinkView::do_nullify_link` (link_view.cpp:365): erase the first occurrence
of the old target; if the list becomes empty, destroy the backing store and
zero the parent cell. -/
def LinkView.do_nullify_link (s : LinkViewState) (oldTarget : Nat) : LVResult :=
  match s.rowIndexes with
  | none => .error .assertionFailed
  | some l =>
    match findFirst l oldTarget with
    | none => .error .assertionFailed
    | some pos =>
      let evs0 := if s.replInstalled then [LVEvent.replListNullify pos] else []
      let l1 := l.eraseIdx pos
      if l1.isEmpty then
        .ok ({ s with rowIndexes := none, cellWord := 0 },
             evs0 ++ [LVEvent.storeErase pos, LVEvent.storeDestroy, LVEvent.parentRefSet 0])
      else
        .ok ({ s with rowIndexes := some l1 }, evs0 ++ [LVEvent.storeErase pos])

/-- `LinkView::size` (tightdb/link_view.hpp:178): 0 on a degenerate cell.  The
accessors are `const`, so they are pure functions of the state — in particular
they allocate no backing store. -/
def LinkView.size (s : LinkViewState) : Nat :=
  match s.rowIndexes with
  | none => 0
  | some l => l.length

/-- `LinkView::is_empty` (tightdb/link_view.hpp:168): true on a degenerate
cell. -/
def LinkView.is_empty (s : LinkViewState) : Bool :=
  match s.rowIndexes with
  | none => true
  | some l => l.isEmpty

/-- `LinkView::find` (tightdb/link_view.hpp:240): `none` (`not_found`) on a
degenerate cell. -/
def LinkView.find (s : LinkViewState) (target : Nat) : Option Nat :=
  match s.rowIndexes with
  | none => none
  | some l => findFirst l target

/-- A sequence of `LinkView::insert` calls; each item is
`(link_ndx, target_row_ndx, storeRef, blRef)`. -/
def runInserts (s : LinkViewState) : List (Nat × Nat × Nat × Nat) → LVResult
  | [] => .ok (s, [])
  | a :: rest =>
    match LinkView.insert s a.1 a.2.1 a.2.2.1 a.2.2.2 with
    | .error e => .error e
    | .ok (s1, evs1) =>
      match runInserts s1 rest with
      | .error e => .error e
      | .ok (s2, evs2) => .ok (s2, evs1 ++ evs2)

/-! ## Target-table row swap (`column_backlink.cpp:285`, `link_view.cpp:401`) -/

/-- The slice of program state touched when two rows of the *target* table are
swapped: one link-list cell of the origin table and the backlink column of the
target table. -/
structure LinkGraphSlice where
  originList : List Nat
  backlinkCells : List BacklinkCell
deriving Repr, DecidableEq

/-- `LinkView::do_swap_link` (link_view.cpp:401): rewrite every occurrence of
either target row to the other. -/
def LinkView.do_swap_link (l : List Nat) (t1 t2 : Nat) : List Nat :=
  l.map (fun v => if v = t1 then t2 else if v = t2 then t1 else v)

/-- `BacklinkColumn::swap_rows` (column_backlink.cpp:285).  The propagation to
the origin column (`std::set` of unique origins, then
`m_origin_column->do_swap_link(origin, row_1, row_2)` per unique origin) is
commented out in this source tree (column_backlink.cpp:287-294); the function
only performs `IntegerColumn::swap_rows`, exchanging the two backlink cells.
In particular no forward-list cell is rewritten on this path. -/
def BacklinkColumn.swap_rows (st : LinkGraphSlice) (i j : Nat) : LinkGraphSlice :=
  let ci := st.backlinkCells.getD i emptyBacklinkCell
  let cj := st.backlinkCells.getD j emptyBacklinkCell
  { st with backlinkCells := (st.backlinkCells.set i cj).set j ci }

/-- The scenario of spec §8.5: the link-list cell on origin row 5 holds
`[7, 7, 9]`; target row 7 is referenced twice (store-form backlink cell holding
`[5, 5]`, under some even nonzero ref), target row 9 once (tagged-inline cell
for origin 5). -/
def swapSlice : LinkGraphSlice :=
  { originList := [7, 7, 9],
    backlinkCells :=
      [emptyBacklinkCell, emptyBacklinkCell, emptyBacklinkCell, emptyBacklinkCell,
       emptyBacklinkCell, emptyBacklinkCell, emptyBacklinkCell,
       { word := 8, store := some [5, 5] }, emptyBacklinkCell,
       { word := tagInline 5, store := none }] }

/-- Concrete test state: an attached view over a degenerate cell. -/
def degenerateLV : LinkViewState :=
  { attached := true, originRow := 0, cellWord := 0, rowIndexes := none,
    backlinks := [], weakLinks := false, replInstalled := false }

/-- Concrete test state: a detached view. -/
def detachedLV : LinkViewState :=
  { attached := false, originRow := 0, cellWord := 0, rowIndexes := none,
    backlinks := [emptyBacklinkCell], weakLinks := false, replInstalled := true }

/-- Concrete test state: an attached view over a degenerate cell of a weak
link-list column (one target row), with a replication sink installed. -/
def insertDemoLV : LinkViewState :=
  { attached := true, originRow := 0, cellWord := 0, rowIndexes := none,
    backlinks := [emptyBacklinkCell], weakLinks := true, replInstalled := true }

/-- `insertDemoLV` after `insert(0, 0)` with refs 8. -/
def insertDemoMid : LinkViewState :=
  { attached := true, originRow := 0, cellWord := 8, rowIndexes := some [0],
    backlinks := [{ word := 1, store := none }], weakLinks := true, replInstalled := true }

/-- `insertDemoMid` after `clear()`. -/
def clearDemoFinal : LinkViewState :=
  { attached := true, originRow := 0, cellWord := 0, rowIndexes := none,
    backlinks := [emptyBacklinkCell], weakLinks := true, replInstalled := true }

/-- Concrete test state: a view over a one-element list `[4]`. -/
def nullifyDemoLV : LinkViewState :=
  { attached := true, originRow := 0, cellWord := 8, rowIndexes := some [4],
    backlinks := [], weakLinks := false, replInstalled := false }

/-- `nullifyDemoLV` after `do_nullify_link(4)`. -/
def nullifyDemoFinal : LinkViewState :=
  { attached := true, originRow := 0, cellWord := 0, rowIndexes := none,
    backlinks := [], weakLinks := false, replInstalled := false }

/-- Concrete test state: a strong link-list column whose list is `[0]`, the
single backlink to target row 0 being this edge (two target rows). -/
def strongSetLV : LinkViewState :=
  { attached := true, originRow := 0, cellWord := 8, rowIndexes := some [0],
    backlinks := [{ word := 1, store := none }, emptyBacklinkCell],
    weakLinks := false, replInstalled := false }

/-! ## List-view accessor registry (`column_linklist.cpp`)

`m_list_accessors` is a vector of `list_entry { m_row_ndx, weak_ptr<LinkView> }`
kept sorted by `m_row_ndx` (spec §4.3; `validate_list_accessors` asserts
sortedness and uniqueness).  A weak handle is `some id` while the `LinkView`
is alive and `none` once expired (a tombstone).  `viewRows` records each live
view's origin-row index (`LinkView::get_origin_row_index`, written by
`set_origin_row_index`).  The model is single-threaded, so after a prune no
tombstone remains. -/

structure ListEntry where
  row : Nat
  view : Option Nat
deriving Repr, DecidableEq

structure ColumnAccessors where
  entries : List ListEntry
  viewRows : List (Nat × Nat)
  tombstones : Bool
deriving Repr, DecidableEq

/-- `LinkView::set_origin_row_index`. -/
def setViewRow (vs : List (Nat × Nat)) (id r : Nat) : List (Nat × Nat) :=
  vs.map (fun p => if p.1 = id then (id, r) else p)

/-- `std::lower_bound` on the sorted registry: split at the first entry whose
row is not less than `key`. -/
def entriesSplit (es : List ListEntry) (key : Nat) : List ListEntry × List ListEntry :=
  (es.takeWhile (fun e => e.row < key), es.dropWhile (fun e => e.row < key))

/-- `LinkListColumn::prune_list_accessor_tombstones` (column_linklist.cpp:699):
when the flag is set, drop the expired entries and clear the flag. -/
def pruneTombstones (ca : ColumnAccessors) : ColumnAccessors :=
  if ca.tombstones then
    { ca with entries := ca.entries.filter (fun e => e.view.isSome), tombstones := false }
  else ca

/-- Destruction of a `LinkView` handle: the registry's weak handle expires and
`unregister_linkview` (column_linklist.cpp:341) sets the tombstone flag. -/
def dropView (ca : ColumnAccessors) (id : Nat) : ColumnAccessors :=
  { entries := ca.entries.map (fun e => if e.view = some id then { e with view := none } else e),
    viewRows := ca.viewRows.filter (fun p => p.1 ≠ id),
    tombstones := true }

/-- `LinkListColumn::adj_insert_rows` (column_linklist.cpp:507): entries at or
above `rowNdx` move up by `k`; with `fixNdx` their views' origin rows are
updated. -/
def adjInsertRows (fixNdx : Bool) (rowNdx k : Nat) (ca : ColumnAccessors) : ColumnAccessors :=
  let ca := pruneTombstones ca
  let pre := (entriesSplit ca.entries rowNdx).1
  let suf := (entriesSplit ca.entries rowNdx).2
  let vs :=
    if fixNdx then
      suf.foldl (fun acc e =>
        match e.view with
        | some id => setViewRow acc id (e.row + k)
        | none => acc) ca.viewRows
    else ca.viewRows
  { entries := pre ++ suf.map (fun e => { e with row := e.row + k }),
    viewRows := vs, tombstones := ca.tombstones }

/-- `LinkListColumn::adj_erase_rows` (column_linklist.cpp:526): entries in
`[rowNdx, rowNdx + k)` are detached and removed; those above move down by
`k`. -/
def adjEraseRows (fixNdx : Bool) (rowNdx k : Nat) (ca : ColumnAccessors) : ColumnAccessors :=
  let ca := pruneTombstones ca
  let pre := (entriesSplit ca.entries rowNdx).1
  let rest := (entriesSplit ca.entries rowNdx).2
  let erased := (entriesSplit rest (rowNdx + k)).1
  let post := (entriesSplit rest (rowNdx + k)).2
  let vs := erased.foldl (fun acc e =>
      match e.view with
      | some id => acc.filter (fun p => p.1 ≠ id)
      | none => acc) ca.viewRows
  let vs :=
    if fixNdx then
      post.foldl (fun acc e =>
        match e.view with
        | some id => setViewRow acc id (e.row - k)
        | none => acc) vs
    else vs
  { entries := pre ++ post.map (fun e => { e with row := e.row - k }),
    viewRows := vs, tombstones := ca.tombstones }

/-- `LinkListColumn::adj_move_over` (column_linklist.cpp:556).  The source
locates the `to` and `from` entries with `std::lower_bound` and moves them
with `iter_swap`/`std::rotate`; on a registry that is sorted with unique rows
(the invariant `validate_list_accessors` asserts) that iterator surgery has
the segment description used here: the `to` entry is detached and tombstoned;
then, if a `from` entry exists, in the `iter_swap` case the two rows' positions
exchange payloads (the live view now sits under row `to`, the fresh tombstone
under row `from`), and in the rotate cases the `from` entry is re-keyed to
`to` and moved to `to`'s sorted position. -/
def moveOverClearTo (toRow : Nat) (ca : ColumnAccessors) : ColumnAccessors × Bool :=
  match (entriesSplit ca.entries toRow).2 with
  | eTo :: _ =>
    if eTo.row = toRow then
      ({ entries := ca.entries.map (fun e => if e.row = toRow then { e with view := none } else e),
         viewRows :=
           match eTo.view with
           | some id => ca.viewRows.filter (fun p => p.1 ≠ id)
           | none => ca.viewRows,
         tombstones := true }, true)
    else (ca, false)
  | [] => (ca, false)

def moveOverRelocate (fixNdx : Bool) (fromRow toRow : Nat) (toFound : Bool)
    (ca1 : ColumnAccessors) : ColumnAccessors :=
  match (entriesSplit ca1.entries fromRow).2 with
  | eF :: _ =>
    if eF.row = fromRow then
      let vs :=
        match eF.view, fixNdx with
        | some id, true => setViewRow ca1.viewRows id toRow
        | _, _ => ca1.viewRows
      if toFound then
        { entries := ca1.entries.map (fun e =>
            if e.row = toRow then { row := toRow, view := eF.view }
            else if e.row = fromRow then { row := fromRow, view := none } else e),
          viewRows := vs, tombstones := ca1.tombstones }
      else
        let without := ca1.entries.filter (fun e => e.row ≠ fromRow)
        { entries := (entriesSplit without toRow).1
            ++ { row := toRow, view := eF.view } :: (entriesSplit without toRow).2,
          viewRows := vs, tombstones := ca1.tombstones }
    else ca1
  | [] => ca1

def adjMoveOver (fixNdx : Bool) (fromRow toRow : Nat) (ca : ColumnAccessors) : ColumnAccessors :=
  if fromRow = toRow then (moveOverClearTo toRow (pruneTombstones ca)).1
  else
    moveOverRelocate fixNdx fromRow toRow
      (moveOverClearTo toRow (pruneTombstones ca)).2
      (moveOverClearTo toRow (pruneTombstones ca)).1

/-- `LinkListColumn::adj_swap` (column_linklist.cpp:604), in the same segment
description.  After pruning no tombstone remains, so a found entry is live; a
row without a live entry behaves as not found (the source's failed lock). -/
def adjSwap (fixNdx : Bool) (r1 r2 : Nat) (ca : ColumnAccessors) : ColumnAccessors :=
  let ca := pruneTombstones ca
  let find : Nat → Option Nat := fun r =>
    match (entriesSplit ca.entries r).2 with
    | e :: _ => if e.row = r ∧ e.view.isSome then e.view else none
    | [] => none
  match find r1, find r2 with
  | some id1, some id2 =>
    let vs := if fixNdx then setViewRow (setViewRow ca.viewRows id1 r2) id2 r1
              else ca.viewRows
    { entries := ca.entries.map (fun e =>
        if e.row = r1 then { row := r1, view := some id2 }
        else if e.row = r2 then { row := r2, view := some id1 } else e),
      viewRows := vs, tombstones := ca.tombstones }
  | some id1, none =>
    let vs := if fixNdx then setViewRow ca.viewRows id1 r2 else ca.viewRows
    let without := ca.entries.filter (fun e => e.row ≠ r1)
    { entries := (entriesSplit without r2).1
        ++ { row := r2, view := some id1 } :: (entriesSplit without r2).2,
      viewRows := vs, tombstones := ca.tombstones }
  | none, some id2 =>
    let vs := if fixNdx then setViewRow ca.viewRows id2 r1 else ca.viewRows
    let without := ca.entries.filter (fun e => e.row ≠ r2)
    { entries := (entriesSplit without r1).1
        ++ { row := r1, view := some id2 } :: (entriesSplit without r1).2,
      viewRows := vs, tombstones := ca.tombstones }
  | none, none => ca

/-- The fallback of `get_ptr`: reuse the expired entry just before the
insertion point, or insert a fresh entry there
(column_linklist.cpp:377-389). -/
def getPtrFallback (rowNdx freshId : Nat) (ca : ColumnAccessors)
    (pre suf : List ListEntry) : Nat × ColumnAccessors :=
  match pre.getLast? with
  | some p =>
    if p.view = none then
      (freshId,
        { entries := pre.dropLast ++ { row := rowNdx, view := some freshId } :: suf,
          viewRows := (freshId, rowNdx) :: ca.viewRows, tombstones := ca.tombstones })
    else
      (freshId,
        { entries := pre ++ { row := rowNdx, view := some freshId } :: suf,
          viewRows := (freshId, rowNdx) :: ca.viewRows, tombstones := ca.tombstones })
  | none =>
    (freshId,
      { entries := pre ++ { row := rowNdx, view := some freshId } :: suf,
        viewRows := (freshId, rowNdx) :: ca.viewRows, tombstones := ca.tombstones })

/-- `LinkListColumn::get_ptr` (column_linklist.cpp:347).  `freshId` stands for
the `LinkView` that `LinkView::create` would allocate if no live one exists;
the result is the handle returned and the updated registry. -/
def getPtr (rowNdx freshId : Nat) (ca : ColumnAccessors) : Nat × ColumnAccessors :=
  let pre := (entriesSplit ca.entries rowNdx).1
  let suf := (entriesSplit ca.entries rowNdx).2
  match suf with
  | e :: rest =>
    if e.row = rowNdx ∧ e.view.isSome then
      (e.view.getD 0, ca)
    else if e.view = none then
      (freshId,
        { entries := pre ++ { row := rowNdx, view := some freshId } :: rest,
          viewRows := (freshId, rowNdx) :: ca.viewRows, tombstones := ca.tombstones })
    else
      getPtrFallback rowNdx freshId ca pre suf
  | [] => getPtrFallback rowNdx freshId ca pre suf

/-- `LinkListColumn::discard_child_accessors` (column_linklist.cpp:416):
detach every view and clear the registry. -/
def discardChildAccessors (ca : ColumnAccessors) : ColumnAccessors :=
  { entries := [], viewRows := [], tombstones := ca.tombstones }

/-- The registry mutators named by the claim: row insertion, erasure,
move-last-over, swap, table clear, accessor lookup, handle destruction and
tombstone pruning. -/
inductive RegOp where
  | insertRows (rowNdx k : Nat)
  | eraseRows (rowNdx k : Nat)
  | moveOver (fromRow toRow : Nat)
  | swapRows (r1 r2 : Nat)
  | clearTable
  | lookup (rowNdx freshId : Nat)
  | viewDestroyed (id : Nat)
  | prune
deriving Repr, DecidableEq

def applyRegOp (ca : ColumnAccessors) : RegOp → ColumnAccessors
  | .insertRows r k => adjInsertRows true r k ca
  | .eraseRows r k => adjEraseRows true r k ca
  | .moveOver f t => adjMoveOver true f t ca
  | .swapRows a b => adjSwap true a b ca
  | .clearTable => discardChildAccessors ca
  | .lookup r id => (getPtr r id ca).2
  | .viewDestroyed id => dropView ca id
  | .prune => pruneTombstones ca

/-- Strict sortedness of the registry by origin row (this subsumes
uniqueness: no two entries share a row, tombstones included). -/
def EntriesSorted (es : List ListEntry) : Prop :=
  es.Pairwise (fun a b => a.row < b.row)

/-- The registry invariant: strictly sorted, and no tombstones unless the
flag is set. -/
def RegInv (ca : ColumnAccessors) : Prop :=
  EntriesSorted ca.entries
  ∧ (ca.tombstones = false → ∀ e ∈ ca.entries, e.view.isSome = true)

/-- A live registry used to exercise the mutators: views 5 and 6 registered
for origin rows 2 and 7. -/
def regDemo : ColumnAccessors :=
  { entries := [{ row := 2, view := some 5 }, { row := 7, view := some 6 }],
    viewRows := [(5, 2), (6, 7)], tombstones := false }

/-- A registry holding a single live view (handle 1) for origin row 10. -/
def c7Demo : ColumnAccessors :=
  { entries := [{ row := 10, view := some 1 }],
    viewRows := [(1, 10)], tombstones := false }

/-! ## Theorems -/

/-- `find_first` followed by `erase(backlink_ndx)` removes the first occurrence. -/
theorem eraseIdx_of_findFirst {l : List Nat} {o i : Nat}
    (h : findFirst l o = some i) :
    l.eraseIdx i = l.erase o ∧ o ∈ l := by
  induction l generalizing i with
  | nil => simp [findFirst] at h
  | cons a as ih =>
    rw [findFirst] at h
    by_cases ha : a = o
    · rw [if_pos ha] at h
      simp only [Option.some.injEq] at h
      subst h
      subst ha
      simp [List.eraseIdx, List.erase_cons_head]
    · rw [if_neg ha] at h
      cases h2 : findFirst as o with
      | none => rw [h2] at h; exact absurd h (by simp)
      | some j =>
        rw [h2] at h
        simp only [Option.map_some', Option.some.injEq] at h
        subst h
        obtain ⟨h3, h4⟩ := ih h2
        have hne : (a == o) = false := by simp [ha]
        refine ⟨?_, by simp [h4]⟩
        simp [List.eraseIdx, List.erase_cons, hne, h3]

theorem findFirst_isSome_of_mem {l : List Nat} {o : Nat} (h : o ∈ l) :
    ∃ i, findFirst l o = some i := by
  induction l with
  | nil => exact absurd h (by simp)
  | cons a as ih =>
    rw [findFirst]
    by_cases ha : a = o
    · exact ⟨0, by rw [if_pos ha]⟩
    · rw [if_neg ha]
      have : o ∈ as := by
        rcases List.mem_cons.mp h with h1 | h1
        · exact absurd h1.symm ha
        · exact h1
      obtain ⟨i, hi⟩ := ih this
      exact ⟨i + 1, by rw [hi]; rfl⟩

theorem tagInline_eq {o : Nat} (h : o < 2 ^ 63) : tagInline o = 2 * o + 1 := by
  have : 2 * o + 1 < U64 := by simp only [U64]; omega
  simp [tagInline, Nat.mod_eq_of_lt this]

/-- One operation preserves the representation invariant. -/
theorem backlinkRepr_step {c c' : BacklinkCell} {m : Multiset Nat} {op : BLOp}
    (hr : BacklinkRepr c m) (hwf : op.WF) (happ : op.apply c = some c') :
    BacklinkRepr c' (op.applyMultiset m) := by
  cases op with
  | add o r =>
    obtain ⟨ho, hr0, hreven⟩ := hwf
    simp only [BLOp.apply, Option.some.injEq] at happ
    subst happ
    rcases hr with ⟨hw, hs, hm⟩ | ⟨o₀, ho₀, hw, hs, hm⟩ | ⟨l, hw, hweven, hs, hlen, hbnd, hm⟩
    · have hc : c.add_backlink o r = { word := tagInline o, store := c.store } := by
        rw [BacklinkCell.add_backlink, if_pos hw]
      rw [hc, hs, hm]
      exact Or.inr (Or.inl ⟨o, ho, by simp [tagInline_eq ho], rfl, rfl⟩)
    · have hdiv : (2 * o₀ + 1) / 2 = o₀ := by omega
      have hc : c.add_backlink o r = { word := r, store := some [o₀, o] } := by
        rw [BacklinkCell.add_backlink, hw, if_neg (by omega), if_pos (by omega), hdiv]
      rw [hc, hm]
      refine Or.inr (Or.inr ⟨[o₀, o], hr0, hreven, rfl, by simp, ?_, ?_⟩)
      · intro x hx
        simp at hx
        rcases hx with rfl | rfl <;> omega
      · show o ::ₘ o₀ ::ₘ 0 = ↑[o₀, o]
        rw [Multiset.cons_swap]
        rfl
    · have hc : c.add_backlink o r = { c with store := some (l ++ [o]) } := by
        rw [BacklinkCell.add_backlink, if_neg hw, if_neg (by omega), hs]
        rfl
      rw [hc, hm]
      refine Or.inr (Or.inr ⟨l ++ [o], hw, hweven, rfl, by simp; omega, ?_, ?_⟩)
      · intro x hx
        rcases List.mem_append.mp hx with hx | hx
        · exact hbnd x hx
        · simp at hx; omega
      · show o ::ₘ (↑l : Multiset Nat) = ↑(l ++ [o])
        rw [← Multiset.coe_add]
        rw [show ((↑[o] : Multiset Nat)) = ({o} : Multiset Nat) from Multiset.coe_singleton o]
        rw [add_comm, Multiset.singleton_add]
  | remove o =>
    simp only [BLOp.apply] at happ
    rcases hr with ⟨hw, hs, hm⟩ | ⟨o₀, ho₀, hw, hs, hm⟩ | ⟨l, hw, hweven, hs, hlen, hbnd, hm⟩
    · simp [BacklinkCell.remove_one_backlink, hw] at happ
    · rw [BacklinkCell.remove_one_backlink] at happ
      rw [hw] at happ
      simp only [show ¬ (2 * o₀ + 1 = 0) by omega, if_false,
        show (2 * o₀ + 1) % 2 = 1 by omega, if_pos rfl, if_true] at happ
      by_cases ho : (2 * o₀ + 1) / 2 = o
      · rw [if_pos ho] at happ
        simp only [Option.some.injEq] at happ
        subst happ
        have : o₀ = o := by omega
        subst this
        refine Or.inl ⟨rfl, hs, ?_⟩
        simp [BLOp.applyMultiset, hm]
      · rw [if_neg ho] at happ
        exact absurd happ (by simp)
    · rw [BacklinkCell.remove_one_backlink, if_neg hw, if_neg (by omega), hs] at happ
      simp only [Option.getD_some] at happ
      cases hfind : findFirst l o with
      | none => rw [hfind] at happ; exact absurd happ (by simp)
      | some i =>
        rw [hfind] at happ
        obtain ⟨herase, hmem⟩ := eraseIdx_of_findFirst hfind
        simp only [herase] at happ
        have hlen' : (l.erase o).length = l.length - 1 := List.length_erase_of_mem hmem
        have hbnd' : ∀ x ∈ l.erase o, x < 2 ^ 63 := fun x hx =>
          hbnd x (List.mem_of_mem_erase hx)
        have hms : ((l.erase o : List Nat) : Multiset Nat) = (↑l : Multiset Nat).erase o :=
          (Multiset.coe_erase l o).symm
        by_cases h1 : (l.erase o).length = 1
        · rw [if_pos h1] at happ
          simp only [Option.some.injEq] at happ
          subst happ
          obtain ⟨a, ha⟩ := List.length_eq_one.mp h1
          have hab : a < 2 ^ 63 := hbnd' a (by simp [ha])
          refine Or.inr (Or.inl ⟨a, hab, ?_, rfl, ?_⟩)
          · simp [ha, tagInline_eq hab]
          · simp only [BLOp.applyMultiset, hm, ← hms, ha]
            rfl
        · rw [if_neg h1] at happ
          simp only [Option.some.injEq] at happ
          subst happ
          refine Or.inr (Or.inr ⟨l.erase o, hw, hweven, rfl, by omega, hbnd', ?_⟩)
          show m.erase o = ↑(l.erase o)
          rw [hm]
          exact hms.symm

theorem backlinkCount_of_repr {c : BacklinkCell} {m : Multiset Nat}
    (h : BacklinkRepr c m) : c.get_backlink_count = Multiset.card m := by
  rcases h with ⟨hw, _, hm⟩ | ⟨o₀, _, hw, _, hm⟩ | ⟨l, hw, hweven, hs, _, _, hm⟩
  · simp [BacklinkCell.get_backlink_count, hw, hm]
  · simp [BacklinkCell.get_backlink_count, hw, hm,
      show ¬ (2 * o₀ + 1 = 0) by omega, show (2 * o₀ + 1) % 2 = 1 by omega]
  · simp [BacklinkCell.get_backlink_count, hw, hweven, hs, hm, show ¬ (1 = 0) by omega]

theorem backlinkRepr_run {ops : List BLOp} {c c' : BacklinkCell} {m : Multiset Nat}
    (hr : BacklinkRepr c m) (hwf : ∀ op ∈ ops, op.WF)
    (hrun : runBacklinkOps c ops = some c') :
    BacklinkRepr c' (runMultisetOps m ops) := by
  induction ops generalizing c m with
  | nil =>
    simp only [runBacklinkOps, Option.some.injEq] at hrun
    subst hrun
    exact hr
  | cons op ops ih =>
    rw [runBacklinkOps] at hrun
    cases happ : op.apply c with
    | none => rw [happ] at hrun; exact absurd hrun (by simp)
    | some c₁ =>
      rw [happ] at hrun
      exact ih (backlinkRepr_step hr (hwf op (by simp)) happ)
        (fun o ho => hwf o (by simp [ho])) hrun

/-- C1: starting from an empty backlink cell, after any successful sequence of
`add_backlink`/`remove_one_backlink` operations the stored 64-bit word encodes
exactly the multiset of origin rows — 0 when the multiset is empty, the tagged
inline value `(origin << 1) | 1` when it has exactly one element, and an
untagged nonzero ref to a backing store holding all origins when it has two or
more — and `get_backlink_count` returns the multiset's size in all three
forms. -/
theorem C1_backlink_word_encodes_multiset (ops : List BLOp) (c : BacklinkCell)
    (hwf : ∀ op ∈ ops, op.WF)
    (hrun : runBacklinkOps emptyBacklinkCell ops = some c) :
    BacklinkRepr c (runMultisetOps 0 ops)
      ∧ c.get_backlink_count = Multiset.card (runMultisetOps 0 ops) := by
  have h0 : BacklinkRepr emptyBacklinkCell 0 := Or.inl ⟨rfl, rfl, rfl⟩
  have h := backlinkRepr_run h0 hwf hrun
  exact ⟨h, backlinkCount_of_repr h⟩

theorem C1_backlink_word_encodes_multiset_witness :
    (∀ op ∈ [BLOp.add 3 8, BLOp.add 5 8, BLOp.remove 3], op.WF)
      ∧ runBacklinkOps emptyBacklinkCell [BLOp.add 3 8, BLOp.add 5 8, BLOp.remove 3]
          = some { word := 11, store := none }
      ∧ (BacklinkRepr { word := 11, store := none }
            (runMultisetOps 0 [BLOp.add 3 8, BLOp.add 5 8, BLOp.remove 3])
          ∧ BacklinkCell.get_backlink_count { word := 11, store := none }
              = Multiset.card (runMultisetOps 0 [BLOp.add 3 8, BLOp.add 5 8, BLOp.remove 3])) :=
  ⟨by decide, by decide,
    C1_backlink_word_encodes_multiset [BLOp.add 3 8, BLOp.add 5 8, BLOp.remove 3]
      { word := 11, store := none } (by decide) (by decide)⟩

/-- C5: a tagged-inline backlink cell holding `o1`, after `add_backlink o2`
(which allocates a backing store holding `[o1, o2]`) followed by
`remove_one_backlink o2`, is restored to exactly the tagged-inline encoding of
`o1`, with the backing store deallocated (`store = none`), not merely
emptied. -/
theorem C5_inline_store_roundtrip (o1 o2 ref : Nat)
    (h1 : o1 < 2 ^ 63) (href : ref ≠ 0) (heven : ref % 2 = 0) :
    (({ word := tagInline o1, store := none } : BacklinkCell).add_backlink o2 ref).store
        = some [o1, o2]
      ∧ (({ word := tagInline o1, store := none } : BacklinkCell).add_backlink o2 ref
          |>.remove_one_backlink o2)
        = some { word := tagInline o1, store := none } := by
  rw [tagInline_eq h1]
  have hw0 : ¬ (2 * o1 + 1 = 0) := by omega
  have hw1 : (2 * o1 + 1) % 2 = 1 := by omega
  have hdiv : (2 * o1 + 1) / 2 = o1 := by omega
  constructor
  · simp [BacklinkCell.add_backlink, hw0, hw1, hdiv]
  · simp only [BacklinkCell.add_backlink, hw0, if_false, hw1, if_pos rfl, if_true, hdiv]
    rw [BacklinkCell.remove_one_backlink]
    simp only [if_neg href, heven]
    rw [if_neg (by omega)]
    by_cases ho : o1 = o2
    · subst ho
      simp [findFirst, List.eraseIdx, tagInline_eq h1]
    · simp [findFirst, ho, List.eraseIdx, tagInline_eq h1]

theorem C5_inline_store_roundtrip_witness :
    ((5 : Nat) < 2 ^ 63 ∧ (8 : Nat) ≠ 0 ∧ (8 : Nat) % 2 = 0)
      ∧ ((({ word := tagInline 5, store := none } : BacklinkCell).add_backlink 7 8).store
            = some [5, 7]
        ∧ (({ word := tagInline 5, store := none } : BacklinkCell).add_backlink 7 8
            |>.remove_one_backlink 7)
          = some { word := tagInline 5, store := none }) :=
  ⟨⟨by decide, by decide, by decide⟩,
    C5_inline_store_roundtrip 5 7 8 (by decide) (by decide) (by decide)⟩

/-- C10: on an attached `ListView` over a degenerate cell (no backing store),
the read-only queries behave as on an empty list — `size` is 0, `is_empty` is
true, `find` is `not_found` — and, the accessors being pure functions of the
state, no backing store is allocated. -/
theorem C10_degenerate_queries (s : LinkViewState) (target : Nat)
    (hatt : s.attached = true) (hdeg : s.rowIndexes = none) :
    LinkView.size s = 0 ∧ LinkView.is_empty s = true ∧ LinkView.find s target = none := by
  simp [LinkView.size, LinkView.is_empty, LinkView.find, hdeg]

theorem C10_degenerate_queries_witness :
    (degenerateLV.attached = true ∧ degenerateLV.rowIndexes = none)
    ∧ (LinkView.size degenerateLV = 0
      ∧ LinkView.is_empty degenerateLV = true
      ∧ LinkView.find degenerateLV 3 = none) :=
  ⟨⟨by decide, by decide⟩,
    C10_degenerate_queries degenerateLV 3 (by decide) (by decide)⟩

/-- C4 fails as stated: on a detached view, `LinkView::insert` does not fail
with `DetachedAccessor` — it fails a `REALM_ASSERT(is_attached())` (program
termination, not a recoverable error).  Concrete input: a detached view and
`insert(0, 0)`. -/
theorem C4_counterexample_insert_detached :
    LinkView.insert detachedLV 0 0 8 8 = .error .assertionFailed
    ∧ (Except.error LVError.assertionFailed :
        Except LVError (LinkViewState × List LVEvent)) ≠ .error .detachedAccessor := by
  constructor
  · decide
  · decide

/-- C4 amended: on a detached `ListView` only `move` and `swap` fail with a
catchable `DetachedAccessor` error; `insert`, `set`, `remove` and `clear` fail
the `is_attached` assertion instead (and the `const` accessors of
tightdb/link_view.hpp carry only a debug assertion — their behaviour on a
detached view is documented there as unspecified). -/
theorem C4_detached_amended (s : LinkViewState) (a b c d : Nat)
    (h : s.attached = false) :
    LinkView.move s a b = .error .detachedAccessor
    ∧ LinkView.swap s a b = .error .detachedAccessor
    ∧ LinkView.insert s a b c d = .error .assertionFailed
    ∧ LinkView.set s a b c = .error .assertionFailed
    ∧ LinkView.remove s a = .error .assertionFailed
    ∧ LinkView.clear s = .error .assertionFailed := by
  refine ⟨?_, ?_, ?_, ?_, ?_, ?_⟩ <;>
    simp [LinkView.move, LinkView.swap, LinkView.insert, LinkView.do_insert,
      LinkView.set, LinkView.remove, LinkView.clear, h]

theorem C4_detached_amended_witness :
    detachedLV.attached = false
    ∧ (LinkView.move detachedLV 0 1 = .error .detachedAccessor
      ∧ LinkView.swap detachedLV 0 1 = .error .detachedAccessor
      ∧ LinkView.insert detachedLV 0 1 2 3 = .error .assertionFailed
      ∧ LinkView.set detachedLV 0 1 2 = .error .assertionFailed
      ∧ LinkView.remove detachedLV 0 = .error .assertionFailed
      ∧ LinkView.clear detachedLV = .error .assertionFailed) :=
  ⟨by decide, C4_detached_amended detachedLV 0 1 2 3 (by decide)⟩

/-- C3 fails as stated: after swapping rows 7 and 9 of the target table, the
link-list cell on origin row 5 still holds `[7, 7, 9]`, not `[9, 9, 7]` — the
unique-origin `do_swap_link` propagation in `BacklinkColumn::swap_rows` is
commented out in this source tree, so no forward-list cell is rewritten. -/
theorem C3_counterexample_swap_leaves_list :
    (BacklinkColumn.swap_rows swapSlice 7 9).originList = [7, 7, 9]
    ∧ (BacklinkColumn.swap_rows swapSlice 7 9).originList ≠ [9, 9, 7] := by
  constructor
  · decide
  · decide

/-- C3 amended: swapping rows 7 and 9 of the target table performs *no*
backlink-origin swap and *no* forward-list rewrite — the list on origin row 5
stays `[7, 7, 9]` — and merely exchanges the two backlink cells wholesale, so
each swapped cell remains a well-formed representation of the multiset it
carried (row 7 now holds the tagged-inline cell of count 1, row 9 the
store-form cell of count 2). -/
theorem C3_swap_rows_amended :
    (BacklinkColumn.swap_rows swapSlice 7 9).originList = [7, 7, 9]
    ∧ (BacklinkColumn.swap_rows swapSlice 7 9).backlinkCells.getD 7 emptyBacklinkCell
        = { word := tagInline 5, store := none }
    ∧ (BacklinkColumn.swap_rows swapSlice 7 9).backlinkCells.getD 9 emptyBacklinkCell
        = { word := 8, store := some [5, 5] }
    ∧ ((BacklinkColumn.swap_rows swapSlice 7 9).backlinkCells.getD 7
        emptyBacklinkCell).get_backlink_count = 1
    ∧ ((BacklinkColumn.swap_rows swapSlice 7 9).backlinkCells.getD 9
        emptyBacklinkCell).get_backlink_count = 2 := by
  refine ⟨?_, ?_, ?_, ?_, ?_⟩ <;> decide

/-- A successful `LinkView::insert` always leaves the backing store attached
(the degenerate cell is realized on first insert). -/
theorem insert_rowIndexes_isSome {s : LinkViewState} {a t sr br : Nat}
    {s' : LinkViewState} {evs : List LVEvent}
    (h : LinkView.insert s a t sr br = .ok (s', evs)) : s'.rowIndexes.isSome = true := by
  rw [LinkView.insert] at h
  cases hdo : LinkView.do_insert s a t sr br with
  | error e => rw [hdo] at h; exact absurd h (by simp)
  | ok p =>
    obtain ⟨s1, evs1⟩ := p
    rw [hdo] at h
    have hs : s' = s1 := by
      by_cases hr : s1.replInstalled = true <;> simp [hr] at h <;> exact h.1.symm
    subst hs
    rw [LinkView.do_insert] at hdo
    split at hdo
    · exact absurd hdo (by simp)
    split at hdo
    · exact absurd hdo (by simp)
    split at hdo
    · exact absurd hdo (by simp)
    split at hdo
    · exact absurd hdo (by simp)
    simp only [Except.ok.injEq, Prod.mk.injEq] at hdo
    rw [← hdo.1]
    rfl

theorem runInserts_degenerate_inv {ops : List (Nat × Nat × Nat × Nat)}
    {s s1 : LinkViewState} {evs : List LVEvent}
    (h0 : s.rowIndexes = none → s.cellWord = 0)
    (h : runInserts s ops = .ok (s1, evs)) :
    s1.rowIndexes = none → s1.cellWord = 0 := by
  induction ops generalizing s evs with
  | nil =>
    simp only [runInserts, Except.ok.injEq, Prod.mk.injEq] at h
    rw [← h.1]
    exact h0
  | cons a rest ih =>
    rw [runInserts] at h
    split at h
    · exact absurd h (by simp)
    next sMid evsMid hins =>
      split at h
      · exact absurd h (by simp)
      next s2 evs2 hrest =>
        simp only [Except.ok.injEq, Prod.mk.injEq] at h
        obtain ⟨h1, h2⟩ := h
        subst h1
        refine ih ?_ hrest
        intro hnone
        have := insert_rowIndexes_isSome hins
        rw [hnone] at this
        simp at this

theorem do_clear_resets {s : LinkViewState} {b : Bool} {s' : LinkViewState}
    {evs : List LVEvent}
    (h : LinkView.do_clear s b = .ok (s', evs)) (hsome : s.rowIndexes.isSome = true) :
    s'.cellWord = 0 ∧ s'.rowIndexes = none := by
  rw [LinkView.do_clear] at h
  split at h
  next l hl =>
    split at h
    · split at h
      · exact absurd h (by simp)
      next bs evs1 hrm =>
        simp only [Except.ok.injEq, Prod.mk.injEq] at h
        rw [← h.1]
        exact ⟨rfl, rfl⟩
    · simp only [Except.ok.injEq, Prod.mk.injEq] at h
      rw [← h.1]
      exact ⟨rfl, rfl⟩
  next hnone =>
    rw [hnone] at hsome
    simp at hsome

theorem clear_resets {s s2 : LinkViewState} {evs2 : List LVEvent}
    (h0 : s.rowIndexes = none → s.cellWord = 0)
    (h : LinkView.clear s = .ok (s2, evs2)) :
    s2.cellWord = 0 ∧ s2.rowIndexes = none := by
  rw [LinkView.clear] at h
  split at h
  · exact absurd h (by simp)
  split at h
  next hnone =>
    simp only [Except.ok.injEq, Prod.mk.injEq] at h
    rw [← h.1]
    exact ⟨h0 hnone, hnone⟩
  next l hl =>
    -- the remaining structure: the replication `if`, the weak/strong `if`,
    -- then the matches on the loop and on do_clear
    split at h <;>
      (split at h
       · -- weak links: do_clear(false)
         split at h
         · exact absurd h (by simp)
         · rename_i s1 evs1 hdc
           simp only [Except.ok.injEq, Prod.mk.injEq] at h
           rw [← h.1]
           exact do_clear_resets hdc (by rw [hl]; rfl)
       · -- strong links: schedule cascades, then do_clear(true)
         split at h
         · exact absurd h (by simp)
         · rename_i bs evs1 rows hcs
           split at h
           · exact absurd h (by simp)
           · rename_i sq evsq hdc
             simp only [Except.ok.injEq, Prod.mk.injEq] at h
             rw [← h.1]
             exact do_clear_resets hdc (by simp [hl]))

/-- C6: inserting any links through a `ListView` and then calling `clear`
leaves the parent cell word 0 with the backing store destroyed
(`rowIndexes = none`); likewise a nullify that removes the last remaining link
destroys the backing store and zeroes the cell word. -/
theorem C6_clear_and_nullify_reset_cell :
    (∀ (s : LinkViewState) (ops : List (Nat × Nat × Nat × Nat)) (s1 s2 : LinkViewState)
        (evs1 evs2 : List LVEvent),
      (s.rowIndexes = none → s.cellWord = 0) →
      runInserts s ops = .ok (s1, evs1) →
      LinkView.clear s1 = .ok (s2, evs2) →
      s2.cellWord = 0 ∧ s2.rowIndexes = none)
    ∧ (∀ (s : LinkViewState) (t : Nat) (l : List Nat) (s' : LinkViewState)
        (evs : List LVEvent),
      s.rowIndexes = some l → l.length = 1 →
      LinkView.do_nullify_link s t = .ok (s', evs) →
      s'.cellWord = 0 ∧ s'.rowIndexes = none) := by
  constructor
  · intro s ops s1 s2 evs1 evs2 h0 hrun hclear
    exact clear_resets (runInserts_degenerate_inv h0 hrun) hclear
  · intro s t l s' evs hl hlen h
    obtain ⟨a, ha⟩ := List.length_eq_one.mp hlen
    subst ha
    rw [LinkView.do_nullify_link] at h
    split at h
    · exact absurd h (by simp)
    next l' hl' =>
      rw [hl] at hl'
      simp only [Option.some.injEq] at hl'
      subst hl'
      split at h
      · exact absurd h (by simp)
      next pos hfind =>
        have hpos : pos = 0 := by
          rw [findFirst] at hfind
          by_cases hat : a = t
          · rw [if_pos hat] at hfind
            simp at hfind
            omega
          · rw [if_neg hat] at hfind
            simp [findFirst] at hfind
        subst hpos
        simp only [List.eraseIdx, List.isEmpty_nil, if_pos] at h
        simp only [Except.ok.injEq, Prod.mk.injEq] at h
        rw [← h.1]
        exact ⟨rfl, rfl⟩

theorem C6_clear_and_nullify_reset_cell_witness :
    (clearDemoFinal.cellWord = 0 ∧ clearDemoFinal.rowIndexes = none)
    ∧ (nullifyDemoFinal.cellWord = 0 ∧ nullifyDemoFinal.rowIndexes = none) :=
  ⟨C6_clear_and_nullify_reset_cell.1 insertDemoLV [(0, 0, 8, 8)] insertDemoMid clearDemoFinal
      [LVEvent.storeCreate 8, LVEvent.parentRefSet 8, LVEvent.storeInsert 0 0,
       LVEvent.backlinkAdd 0 0, LVEvent.replListInsert 0 0]
      [LVEvent.replListClear, LVEvent.backlinkRemove 0 0, LVEvent.storeDestroy,
       LVEvent.parentRefSet 0]
      (by decide) (by decide) (by decide),
   C6_clear_and_nullify_reset_cell.2 nullifyDemoLV 4 [4] nullifyDemoFinal
      [LVEvent.storeErase 0, LVEvent.storeDestroy, LVEvent.parentRefSet 0]
      (by decide) (by decide) (by decide)⟩

theorem findIdxLV_none_of_all {p : LVEvent → Bool} {l : List LVEvent}
    (h : l.all (fun e => !p e) = true) : ∀ i, l.findIdx? p i = none := by
  induction l with
  | nil => intro i; rfl
  | cons e es ih =>
    intro i
    simp only [List.all_cons, Bool.and_eq_true, Bool.not_eq_true'] at h
    rw [List.findIdx?_cons, h.1, if_neg Bool.false_ne_true]
    exact ih h.2 (i + 1)

theorem replPrecedes_of_head {e : LVEvent} (evs : List LVEvent)
    (he : e.isRepl = true) : replPrecedesBookkeeping (e :: evs) = true := by
  rw [replPrecedesBookkeeping, List.findIdx?_cons, he, if_pos rfl]
  rfl

theorem replPrecedes_of_no_repl {evs : List LVEvent}
    (h : evs.all (fun e => !e.isRepl) = true) : replPrecedesBookkeeping evs = true := by
  rw [replPrecedesBookkeeping, findIdxLV_none_of_all h 0]

theorem bkPrecedes_of_no_repl {evs : List LVEvent}
    (h : evs.all (fun e => !e.isRepl) = true) : bookkeepingPrecedesRepl evs = true := by
  rw [bookkeepingPrecedesRepl, findIdxLV_none_of_all h 0]

theorem findIdxLV_append_last {p : LVEvent → Bool} {e : LVEvent} (he : p e = true) :
    ∀ (l : List LVEvent), l.all (fun x => !p x) = true →
      ∀ i, (l ++ [e]).findIdx? p i = some (i + l.length)
  | [], _, i => by
    rw [List.nil_append, List.findIdx?_cons, he, if_pos rfl]
    simp
  | x :: xs, hl, i => by
    have hl' : p x = false ∧ xs.all (fun x => !p x) = true := by
      simpa [Bool.not_eq_true'] using hl
    rw [List.cons_append, List.findIdx?_cons, hl'.1, if_neg Bool.false_ne_true,
      findIdxLV_append_last he xs hl'.2 (i + 1)]
    congr 1
    simp
    omega

theorem bkPrecedes_of_last {l : List LVEvent} {e : LVEvent}
    (hl : l.all (fun x => !x.isRepl) = true) (he : e.isRepl = true) :
    bookkeepingPrecedesRepl (l ++ [e]) = true := by
  rw [bookkeepingPrecedesRepl, findIdxLV_append_last he l hl 0]
  have hdrop : (l ++ [e]).drop (0 + l.length + 1) = [] := by
    apply List.drop_eq_nil_of_le
    simp
  show ((l ++ [e]).drop (0 + l.length + 1)).all (fun e => !e.isBookkeeping) = true
  rw [hdrop]
  rfl

theorem do_set_evs {s : LinkViewState} {a t r : Nat} {s1 : LinkViewState}
    {evs1 : List LVEvent} {old : Nat}
    (hdo : LinkView.do_set s a t r = .ok (s1, (evs1, old))) :
    evs1.all (fun e => !e.isRepl) = true := by
  rw [LinkView.do_set] at hdo
  split at hdo
  · exact absurd hdo (by simp)
  · simp only [Except.ok.injEq, Prod.mk.injEq] at hdo
    rw [← hdo.2.1]
    rfl

theorem do_remove_evs {s : LinkViewState} {a : Nat} {s1 : LinkViewState}
    {evs1 : List LVEvent} {old : Nat}
    (hdo : LinkView.do_remove s a = .ok (s1, (evs1, old))) :
    evs1.all (fun e => !e.isRepl) = true := by
  rw [LinkView.do_remove] at hdo
  split at hdo
  · exact absurd hdo (by simp)
  · simp only [Except.ok.injEq, Prod.mk.injEq] at hdo
    rw [← hdo.2.1]
    rfl

theorem removeAllBacklinks_evs {origin : Nat} :
    ∀ {targets : List Nat} {bs bs' : List BacklinkCell} {evs : List LVEvent},
      removeAllBacklinks bs targets origin = some (bs', evs) →
      evs.all (fun e => !e.isRepl) = true := by
  intro targets
  induction targets with
  | nil =>
    intro bs bs' evs h
    simp only [removeAllBacklinks, Option.some.injEq, Prod.mk.injEq] at h
    rw [← h.2]
    rfl
  | cons t ts ih =>
    intro bs bs' evs h
    rw [removeAllBacklinks] at h
    split at h
    · exact absurd h (by simp)
    · split at h
      · exact absurd h (by simp)
      · rename_i bs2 evs2 hrec
        simp only [Option.some.injEq, Prod.mk.injEq] at h
        rw [← h.2]
        simp only [List.all_cons, Bool.and_eq_true]
        exact ⟨rfl, ih hrec⟩

theorem clearStrongLoop_evs {origin : Nat} :
    ∀ {targets rows : List Nat} {bs : List BacklinkCell}
      {x : List BacklinkCell × List LVEvent × List Nat},
      clearStrongLoop bs targets origin rows = some x →
      x.2.1.all (fun e => !e.isRepl) = true := by
  intro targets
  induction targets with
  | nil =>
    intro rows bs x h
    simp only [clearStrongLoop, Option.some.injEq] at h
    rw [← h]
    rfl
  | cons t ts ih =>
    intro rows bs x h
    rw [clearStrongLoop] at h
    split at h
    · exact absurd h (by simp)
    · split at h
      · split at h
        · exact absurd h (by simp)
        · rename_i y hrec
          simp only [Option.some.injEq] at h
          rw [← h]
          simp only [List.all_cons, Bool.and_eq_true]
          exact ⟨rfl, ih hrec⟩
      · split at h
        · exact absurd h (by simp)
        · split at h
          · exact absurd h (by simp)
          · rename_i y hrec
            simp only [Option.some.injEq] at h
            rw [← h]
            simp only [List.all_cons, Bool.and_eq_true]
            exact ⟨rfl, ih hrec⟩

theorem do_clear_evs {s : LinkViewState} {b : Bool} {s1 : LinkViewState}
    {evs : List LVEvent}
    (h : LinkView.do_clear s b = .ok (s1, evs)) :
    evs.all (fun e => !e.isRepl) = true := by
  rw [LinkView.do_clear] at h
  split at h
  · split at h
    · split at h
      · exact absurd h (by simp)
      · rename_i bs evs1 hrm
        simp only [Except.ok.injEq, Prod.mk.injEq] at h
        rw [← h.2]
        rw [List.all_append, removeAllBacklinks_evs hrm]
        rfl
    · simp only [Except.ok.injEq, Prod.mk.injEq] at h
      rw [← h.2]
      rfl
  · simp only [Except.ok.injEq, Prod.mk.injEq] at h
    rw [← h.2]
    rfl

theorem do_insert_evs {s : LinkViewState} {a t sr br : Nat} {s1 : LinkViewState}
    {evs : List LVEvent}
    (h : LinkView.do_insert s a t sr br = .ok (s1, evs)) :
    evs.all (fun e => !e.isRepl) = true := by
  rw [LinkView.do_insert] at h
  split at h
  · exact absurd h (by simp)
  split at h
  · exact absurd h (by simp)
  split at h
  · exact absurd h (by simp)
  split at h
  · exact absurd h (by simp)
  simp only [Except.ok.injEq, Prod.mk.injEq] at h
  rw [← h.2]
  cases hr : s.rowIndexes <;> rfl

theorem cascadeMap_evs (rows : List Nat) :
    (rows.map LVEvent.cascadeRowRemoval).all (fun e => !e.isRepl) = true := by
  induction rows with
  | nil => rfl
  | cons r rs ih =>
    simp only [List.map_cons, List.all_cons, Bool.and_eq_true]
    exact ⟨rfl, ih⟩

theorem set_replFirst {s : LinkViewState} {a t r : Nat} {s' : LinkViewState}
    {evs : List LVEvent} (h : LinkView.set s a t r = .ok (s', evs)) :
    replPrecedesBookkeeping evs = true := by
  rw [LinkView.set] at h
  split at h
  · exact absurd h (by simp)
  split at h
  · exact absurd h (by simp)
  split at h
  · exact absurd h (by simp)
  by_cases hrep : s.replInstalled = true
  · rw [if_pos hrep] at h
    split at h
    · exact absurd h (by simp)
    rename_i s1 evs1 old hdo
    split at h
    · simp only [Except.ok.injEq, Prod.mk.injEq] at h
      rw [← h.2]
      show replPrecedesBookkeeping (LVEvent.replListSet a t :: evs1) = true
      exact replPrecedes_of_head _ rfl
    split at h
    · simp only [Except.ok.injEq, Prod.mk.injEq] at h
      rw [← h.2]
      show replPrecedesBookkeeping (LVEvent.replListSet a t :: evs1) = true
      exact replPrecedes_of_head _ rfl
    · simp only [Except.ok.injEq, Prod.mk.injEq] at h
      rw [← h.2]
      show replPrecedesBookkeeping
        (LVEvent.replListSet a t :: (evs1 ++ [LVEvent.cascadeRowRemoval old])) = true
      exact replPrecedes_of_head _ rfl
  · rw [if_neg hrep] at h
    split at h
    · exact absurd h (by simp)
    rename_i s1 evs1 old hdo
    have hall : evs1.all (fun e => !e.isRepl) = true := do_set_evs hdo
    split at h
    · simp only [Except.ok.injEq, Prod.mk.injEq] at h
      rw [← h.2]
      exact replPrecedes_of_no_repl hall
    split at h
    · simp only [Except.ok.injEq, Prod.mk.injEq] at h
      rw [← h.2]
      exact replPrecedes_of_no_repl hall
    · simp only [Except.ok.injEq, Prod.mk.injEq] at h
      rw [← h.2]
      refine replPrecedes_of_no_repl ?_
      show ((evs1 : List LVEvent) ++ [LVEvent.cascadeRowRemoval old]).all
        (fun e => !e.isRepl) = true
      rw [List.all_append, hall]
      rfl

theorem remove_replFirst {s : LinkViewState} {a : Nat} {s' : LinkViewState}
    {evs : List LVEvent} (h : LinkView.remove s a = .ok (s', evs)) :
    replPrecedesBookkeeping evs = true := by
  rw [LinkView.remove] at h
  split at h
  · exact absurd h (by simp)
  split at h
  · exact absurd h (by simp)
  by_cases hrep : s.replInstalled = true
  · rw [if_pos hrep] at h
    split at h
    · exact absurd h (by simp)
    rename_i s1 evs1 old hdo
    split at h
    · simp only [Except.ok.injEq, Prod.mk.injEq] at h
      rw [← h.2]
      show replPrecedesBookkeeping (LVEvent.replListErase a :: evs1) = true
      exact replPrecedes_of_head _ rfl
    split at h
    · simp only [Except.ok.injEq, Prod.mk.injEq] at h
      rw [← h.2]
      show replPrecedesBookkeeping (LVEvent.replListErase a :: evs1) = true
      exact replPrecedes_of_head _ rfl
    · simp only [Except.ok.injEq, Prod.mk.injEq] at h
      rw [← h.2]
      show replPrecedesBookkeeping
        (LVEvent.replListErase a :: (evs1 ++ [LVEvent.cascadeRowRemoval old])) = true
      exact replPrecedes_of_head _ rfl
  · rw [if_neg hrep] at h
    split at h
    · exact absurd h (by simp)
    rename_i s1 evs1 old hdo
    have hall : evs1.all (fun e => !e.isRepl) = true := do_remove_evs hdo
    split at h
    · simp only [Except.ok.injEq, Prod.mk.injEq] at h
      rw [← h.2]
      exact replPrecedes_of_no_repl hall
    split at h
    · simp only [Except.ok.injEq, Prod.mk.injEq] at h
      rw [← h.2]
      exact replPrecedes_of_no_repl hall
    · simp only [Except.ok.injEq, Prod.mk.injEq] at h
      rw [← h.2]
      refine replPrecedes_of_no_repl ?_
      show ((evs1 : List LVEvent) ++ [LVEvent.cascadeRowRemoval old]).all
        (fun e => !e.isRepl) = true
      rw [List.all_append, hall]
      rfl

theorem clear_replFirst {s : LinkViewState} {s' : LinkViewState}
    {evs : List LVEvent} (h : LinkView.clear s = .ok (s', evs)) :
    replPrecedesBookkeeping evs = true := by
  rw [LinkView.clear] at h
  split at h
  · exact absurd h (by simp)
  split at h
  next hnone =>
    simp only [Except.ok.injEq, Prod.mk.injEq] at h
    rw [← h.2]
    rfl
  next l hl =>
    by_cases hrep : s.replInstalled = true
    · rw [if_pos hrep] at h
      split at h
      · split at h
        · exact absurd h (by simp)
        rename_i s1 evs1 hdc
        simp only [Except.ok.injEq, Prod.mk.injEq] at h
        rw [← h.2]
        show replPrecedesBookkeeping (LVEvent.replListClear :: evs1) = true
        exact replPrecedes_of_head _ rfl
      · split at h
        · exact absurd h (by simp)
        rename_i bs evs1 rows hcs
        split at h
        · exact absurd h (by simp)
        rename_i sq evsq hdc
        simp only [Except.ok.injEq, Prod.mk.injEq] at h
        rw [← h.2]
        show replPrecedesBookkeeping
          (LVEvent.replListClear ::
            ((evs1 ++ evsq) ++ rows.map LVEvent.cascadeRowRemoval)) = true
        exact replPrecedes_of_head _ rfl
    · rw [if_neg hrep] at h
      split at h
      · split at h
        · exact absurd h (by simp)
        rename_i s1 evs1 hdc
        simp only [Except.ok.injEq, Prod.mk.injEq] at h
        rw [← h.2]
        exact replPrecedes_of_no_repl (do_clear_evs hdc)
      · split at h
        · exact absurd h (by simp)
        rename_i bs evs1 rows hcs
        split at h
        · exact absurd h (by simp)
        rename_i sq evsq hdc
        simp only [Except.ok.injEq, Prod.mk.injEq] at h
        rw [← h.2]
        refine replPrecedes_of_no_repl ?_
        show (((evs1 : List LVEvent) ++ evsq) ++ rows.map LVEvent.cascadeRowRemoval).all
          (fun e => !e.isRepl) = true
        rw [List.all_append, List.all_append, clearStrongLoop_evs hcs,
          do_clear_evs hdc, cascadeMap_evs]
        rfl

theorem insert_bkOrder {s : LinkViewState} {a t sr br : Nat} {s' : LinkViewState}
    {evs : List LVEvent} (h : LinkView.insert s a t sr br = .ok (s', evs)) :
    bookkeepingPrecedesRepl evs = true := by
  rw [LinkView.insert] at h
  split at h
  · exact absurd h (by simp)
  rename_i s1 evs1 hdo
  have hall := do_insert_evs hdo
  split at h
  · simp only [Except.ok.injEq, Prod.mk.injEq] at h
    rw [← h.2]
    exact bkPrecedes_of_last hall rfl
  · simp only [Except.ok.injEq, Prod.mk.injEq] at h
    rw [← h.2]
    exact bkPrecedes_of_no_repl hall

theorem move_bkOrder {s : LinkViewState} {f t : Nat} {s' : LinkViewState}
    {evs : List LVEvent} (h : LinkView.move s f t = .ok (s', evs)) :
    bookkeepingPrecedesRepl evs = true := by
  rw [LinkView.move] at h
  split at h
  · exact absurd h (by simp)
  split at h
  · exact absurd h (by simp)
  split at h
  · simp only [Except.ok.injEq, Prod.mk.injEq] at h
    rw [← h.2]
    rfl
  · split at h
    · simp only [Except.ok.injEq, Prod.mk.injEq] at h
      rw [← h.2]
      exact bkPrecedes_of_last rfl rfl
    · simp only [Except.ok.injEq, Prod.mk.injEq] at h
      rw [← h.2]
      exact bkPrecedes_of_no_repl rfl

theorem swap_bkOrder {s : LinkViewState} {i j : Nat} {s' : LinkViewState}
    {evs : List LVEvent} (h : LinkView.swap s i j = .ok (s', evs)) :
    bookkeepingPrecedesRepl evs = true := by
  rw [LinkView.swap] at h
  split at h
  · exact absurd h (by simp)
  split at h
  · exact absurd h (by simp)
  split at h
  · simp only [Except.ok.injEq, Prod.mk.injEq] at h
    rw [← h.2]
    rfl
  · split at h
    · simp only [Except.ok.injEq, Prod.mk.injEq] at h
      rw [← h.2]
      exact bkPrecedes_of_last rfl rfl
    · simp only [Except.ok.injEq, Prod.mk.injEq] at h
      rw [← h.2]
      exact bkPrecedes_of_no_repl rfl

/-- C2 fails as stated: `LinkView::insert` performs the store and backlink
updates first (`do_insert`) and reports to the replication sink afterwards.
Concrete input: `insert(0, 0)` with a replication sink installed on a
degenerate cell — the trace is store-create, parent-ref, store-insert,
backlink-add, and only then the replication event. -/
theorem C2_counterexample_insert_repl_after_updates :
    LinkView.insert insertDemoLV 0 0 8 8
      = .ok (insertDemoMid,
        [LVEvent.storeCreate 8, LVEvent.parentRefSet 8, LVEvent.storeInsert 0 0,
         LVEvent.backlinkAdd 0 0, LVEvent.replListInsert 0 0])
    ∧ replPrecedesBookkeeping
        [LVEvent.storeCreate 8, LVEvent.parentRefSet 8, LVEvent.storeInsert 0 0,
         LVEvent.backlinkAdd 0 0, LVEvent.replListInsert 0 0] = false := by
  constructor
  · decide
  · decide

/-- C2 amended: `set`, `remove` and `clear` emit the replication event before
any backlink or forward-store update, but `insert`, `move` and `swap` perform
all their updates first and emit the replication event afterwards. -/
theorem C2_repl_order_amended :
    (∀ (s : LinkViewState) (a t r : Nat) (s' : LinkViewState) (evs : List LVEvent),
      LinkView.set s a t r = .ok (s', evs) → replPrecedesBookkeeping evs = true)
    ∧ (∀ (s : LinkViewState) (a : Nat) (s' : LinkViewState) (evs : List LVEvent),
      LinkView.remove s a = .ok (s', evs) → replPrecedesBookkeeping evs = true)
    ∧ (∀ (s : LinkViewState) (s' : LinkViewState) (evs : List LVEvent),
      LinkView.clear s = .ok (s', evs) → replPrecedesBookkeeping evs = true)
    ∧ (∀ (s : LinkViewState) (a t sr br : Nat) (s' : LinkViewState) (evs : List LVEvent),
      LinkView.insert s a t sr br = .ok (s', evs) → bookkeepingPrecedesRepl evs = true)
    ∧ (∀ (s : LinkViewState) (f t : Nat) (s' : LinkViewState) (evs : List LVEvent),
      LinkView.move s f t = .ok (s', evs) → bookkeepingPrecedesRepl evs = true)
    ∧ (∀ (s : LinkViewState) (i j : Nat) (s' : LinkViewState) (evs : List LVEvent),
      LinkView.swap s i j = .ok (s', evs) → bookkeepingPrecedesRepl evs = true) :=
  ⟨fun _ _ _ _ _ _ h => set_replFirst h,
   fun _ _ _ _ h => remove_replFirst h,
   fun _ _ _ h => clear_replFirst h,
   fun _ _ _ _ _ _ _ h => insert_bkOrder h,
   fun _ _ _ _ _ h => move_bkOrder h,
   fun _ _ _ _ _ h => swap_bkOrder h⟩

theorem C2_repl_order_amended_witness :
    replPrecedesBookkeeping [LVEvent.replListSet 0 0, LVEvent.backlinkRemove 0 0,
      LVEvent.backlinkAdd 0 0, LVEvent.storeSet 0 0] = true
    ∧ bookkeepingPrecedesRepl [LVEvent.storeCreate 8, LVEvent.parentRefSet 8,
        LVEvent.storeInsert 0 0, LVEvent.backlinkAdd 0 0,
        LVEvent.replListInsert 0 0] = true :=
  ⟨C2_repl_order_amended.1 insertDemoMid 0 0 8 insertDemoMid
      [LVEvent.replListSet 0 0, LVEvent.backlinkRemove 0 0,
       LVEvent.backlinkAdd 0 0, LVEvent.storeSet 0 0] (by decide),
   C2_repl_order_amended.2.2.2.1 insertDemoLV 0 0 8 8 insertDemoMid
      [LVEvent.storeCreate 8, LVEvent.parentRefSet 8, LVEvent.storeInsert 0 0,
       LVEvent.backlinkAdd 0 0, LVEvent.replListInsert 0 0] (by decide)⟩

theorem do_set_facts {s : LinkViewState} {a t r : Nat} {s1 : LinkViewState}
    {evs1 : List LVEvent} {old : Nat}
    (hdo : LinkView.do_set s a t r = .ok (s1, (evs1, old))) :
    old = (s.rowIndexes.getD []).getD a 0
    ∧ s1.weakLinks = s.weakLinks := by
  rw [LinkView.do_set] at hdo
  split at hdo
  · exact absurd hdo (by simp)
  · simp only [Except.ok.injEq, Prod.mk.injEq] at hdo
    obtain ⟨h1, _, h3⟩ := hdo
    refine ⟨h3.symm, ?_⟩
    rw [← h1]

theorem do_remove_facts {s : LinkViewState} {a : Nat} {s1 : LinkViewState}
    {evs1 : List LVEvent} {old : Nat}
    (hdo : LinkView.do_remove s a = .ok (s1, (evs1, old))) :
    old = (s.rowIndexes.getD []).getD a 0
    ∧ s1.weakLinks = s.weakLinks := by
  rw [LinkView.do_remove] at hdo
  split at hdo
  · exact absurd hdo (by simp)
  · simp only [Except.ok.injEq, Prod.mk.injEq] at hdo
    obtain ⟨h1, _, h3⟩ := hdo
    refine ⟨h3.symm, ?_⟩
    rw [← h1]

theorem do_set_evs_shape {s : LinkViewState} {a t r : Nat} {s1 : LinkViewState}
    {evs1 : List LVEvent} {old : Nat}
    (hdo : LinkView.do_set s a t r = .ok (s1, (evs1, old))) :
    evs1 = [LVEvent.backlinkRemove old s.originRow, LVEvent.backlinkAdd t s.originRow,
      LVEvent.storeSet a t] := by
  rw [LinkView.do_set] at hdo
  split at hdo
  · exact absurd hdo (by simp)
  · simp only [Except.ok.injEq, Prod.mk.injEq] at hdo
    obtain ⟨_, h2, h3⟩ := hdo
    rw [← h2, h3]

theorem do_remove_evs_shape {s : LinkViewState} {a : Nat} {s1 : LinkViewState}
    {evs1 : List LVEvent} {old : Nat}
    (hdo : LinkView.do_remove s a = .ok (s1, (evs1, old))) :
    evs1 = [LVEvent.backlinkRemove old s.originRow, LVEvent.storeErase a] := by
  rw [LinkView.do_remove] at hdo
  split at hdo
  · exact absurd hdo (by simp)
  · simp only [Except.ok.injEq, Prod.mk.injEq] at hdo
    obtain ⟨_, h2, h3⟩ := hdo
    rw [← h2, h3]

/-- C8: for `LinkView::set` and `LinkView::remove`, a cascade row removal of
the old target happens exactly when the column's links are strong
(`weakLinks = false`) and the old target's backlink count — measured, as the
code does, on the state after the backlink bookkeeping of the mutation — is
zero; with weak links or a positive remaining count no row removal occurs. -/
theorem C8_cascade_on_set_remove :
    (∀ (s : LinkViewState) (ndx t r : Nat) (s' : LinkViewState) (evs : List LVEvent)
        (l : List Nat) (old : Nat),
      LinkView.set s ndx t r = .ok (s', evs) →
      s.rowIndexes = some l → l.getD ndx 0 = old →
      (LVEvent.cascadeRowRemoval old ∈ evs ↔
        (s.weakLinks = false
          ∧ (s'.backlinks.getD old emptyBacklinkCell).get_backlink_count = 0)))
    ∧ (∀ (s : LinkViewState) (ndx : Nat) (s' : LinkViewState) (evs : List LVEvent)
        (l : List Nat) (old : Nat),
      LinkView.remove s ndx = .ok (s', evs) →
      s.rowIndexes = some l → l.getD ndx 0 = old →
      (LVEvent.cascadeRowRemoval old ∈ evs ↔
        (s.weakLinks = false
          ∧ (s'.backlinks.getD old emptyBacklinkCell).get_backlink_count = 0))) := by
  constructor
  · intro s ndx t r s' evs l old h hl hold
    rw [LinkView.set] at h
    split at h
    · exact absurd h (by simp)
    split at h
    · exact absurd h (by simp)
    split at h
    · exact absurd h (by simp)
    set evs0 : List LVEvent :=
      if s.replInstalled = true then [LVEvent.replListSet ndx t] else [] with hevs0
    have hnotin : LVEvent.cascadeRowRemoval old ∉ evs0 := by
      rw [hevs0]
      by_cases hrep : s.replInstalled = true <;> simp [hrep]
    split at h
    · exact absurd h (by simp)
    rename_i s1 evs1 old' hdo
    obtain ⟨holdeq, hweakeq⟩ := do_set_facts hdo
    have hold' : old' = old := by
      rw [holdeq, hl]
      simpa using hold
    subst hold'
    have hevs1 := do_set_evs_shape hdo
    split at h
    · rename_i hw
      simp only [Except.ok.injEq, Prod.mk.injEq] at h
      obtain ⟨hs, hevs⟩ := h
      subst hs
      rw [← hevs]
      refine iff_of_false ?_ ?_
      · intro hmem
        rcases List.mem_append.mp hmem with h1 | h2
        · exact hnotin h1
        · rw [hevs1] at h2
          simp at h2
      · rw [hweakeq] at hw
        intro hc
        rw [hw] at hc
        exact absurd hc.1 (by simp)
    · split at h
      · rename_i hcnt
        simp only [Except.ok.injEq, Prod.mk.injEq] at h
        obtain ⟨hs, hevs⟩ := h
        subst hs
        rw [← hevs]
        refine iff_of_false ?_ ?_
        · intro hmem
          rcases List.mem_append.mp hmem with h1 | h2
          · exact hnotin h1
          · rw [hevs1] at h2
            simp at h2
        · intro hc
          omega
      · rename_i hcnt
        simp only [Except.ok.injEq, Prod.mk.injEq] at h
        obtain ⟨hs, hevs⟩ := h
        subst hs
        rw [← hevs]
        rename_i hw
        refine iff_of_true ?_ ?_
        · exact List.mem_append.mpr (Or.inr (by simp))
        · refine ⟨?_, by omega⟩
          rw [hweakeq] at hw
          revert hw
          cases s.weakLinks <;> simp
  · intro s ndx s' evs l old h hl hold
    rw [LinkView.remove] at h
    split at h
    · exact absurd h (by simp)
    split at h
    · exact absurd h (by simp)
    set evs0 : List LVEvent :=
      if s.replInstalled = true then [LVEvent.replListErase ndx] else [] with hevs0
    have hnotin : LVEvent.cascadeRowRemoval old ∉ evs0 := by
      rw [hevs0]
      by_cases hrep : s.replInstalled = true <;> simp [hrep]
    split at h
    · exact absurd h (by simp)
    rename_i s1 evs1 old' hdo
    obtain ⟨holdeq, hweakeq⟩ := do_remove_facts hdo
    have hold' : old' = old := by
      rw [holdeq, hl]
      simpa using hold
    subst hold'
    have hevs1 := do_remove_evs_shape hdo
    split at h
    · rename_i hw
      simp only [Except.ok.injEq, Prod.mk.injEq] at h
      obtain ⟨hs, hevs⟩ := h
      subst hs
      rw [← hevs]
      refine iff_of_false ?_ ?_
      · intro hmem
        rcases List.mem_append.mp hmem with h1 | h2
        · exact hnotin h1
        · rw [hevs1] at h2
          simp at h2
      · rw [hweakeq] at hw
        intro hc
        rw [hw] at hc
        exact absurd hc.1 (by simp)
    · split at h
      · rename_i hcnt
        simp only [Except.ok.injEq, Prod.mk.injEq] at h
        obtain ⟨hs, hevs⟩ := h
        subst hs
        rw [← hevs]
        refine iff_of_false ?_ ?_
        · intro hmem
          rcases List.mem_append.mp hmem with h1 | h2
          · exact hnotin h1
          · rw [hevs1] at h2
            simp at h2
        · intro hc
          omega
      · rename_i hcnt
        simp only [Except.ok.injEq, Prod.mk.injEq] at h
        obtain ⟨hs, hevs⟩ := h
        subst hs
        rw [← hevs]
        rename_i hw
        refine iff_of_true ?_ ?_
        · exact List.mem_append.mpr (Or.inr (by simp))
        · refine ⟨?_, by omega⟩
          rw [hweakeq] at hw
          revert hw
          cases s.weakLinks <;> simp

theorem C8_cascade_on_set_remove_witness :
    (LVEvent.cascadeRowRemoval 0 ∈
        [LVEvent.backlinkRemove 0 0, LVEvent.backlinkAdd 1 0, LVEvent.storeSet 0 1,
         LVEvent.cascadeRowRemoval 0] ↔
      (strongSetLV.weakLinks = false
        ∧ (([emptyBacklinkCell, { word := 1, store := none }] :
              List BacklinkCell).getD 0 emptyBacklinkCell).get_backlink_count = 0))
    ∧ (LVEvent.cascadeRowRemoval 0 ∈
        [LVEvent.backlinkRemove 0 0, LVEvent.storeErase 0, LVEvent.cascadeRowRemoval 0] ↔
      (strongSetLV.weakLinks = false
        ∧ (([emptyBacklinkCell, emptyBacklinkCell] :
              List BacklinkCell).getD 0 emptyBacklinkCell).get_backlink_count = 0)) :=
  ⟨C8_cascade_on_set_remove.1 strongSetLV 0 1 8
      { attached := true, originRow := 0, cellWord := 8, rowIndexes := some [1],
        backlinks := [emptyBacklinkCell, { word := 1, store := none }],
        weakLinks := false, replInstalled := false }
      [LVEvent.backlinkRemove 0 0, LVEvent.backlinkAdd 1 0, LVEvent.storeSet 0 1,
       LVEvent.cascadeRowRemoval 0]
      [0] 0 (by decide) (by decide) (by decide),
   C8_cascade_on_set_remove.2 strongSetLV 0
      { attached := true, originRow := 0, cellWord := 8, rowIndexes := some [],
        backlinks := [emptyBacklinkCell, emptyBacklinkCell],
        weakLinks := false, replInstalled := false }
      [LVEvent.backlinkRemove 0 0, LVEvent.storeErase 0, LVEvent.cascadeRowRemoval 0]
      [0] 0 (by decide) (by decide) (by decide)⟩

theorem entriesSplit_append (es : List ListEntry) (key : Nat) :
    (entriesSplit es key).1 ++ (entriesSplit es key).2 = es :=
  List.takeWhile_append_dropWhile _ _

theorem mem_split_fst_lt {es : List ListEntry} {key : Nat} {e : ListEntry}
    (h : e ∈ (entriesSplit es key).1) : e.row < key := by
  have := List.mem_takeWhile_imp h
  simpa using this

theorem split_fst_sorted {es : List ListEntry} {key : Nat} (h : EntriesSorted es) :
    EntriesSorted (entriesSplit es key).1 :=
  h.sublist (List.takeWhile_sublist _)

theorem split_snd_sorted {es : List ListEntry} {key : Nat} (h : EntriesSorted es) :
    EntriesSorted (entriesSplit es key).2 :=
  h.sublist (List.dropWhile_sublist _)

theorem mem_of_mem_split_fst {es : List ListEntry} {key : Nat} {e : ListEntry}
    (h : e ∈ (entriesSplit es key).1) : e ∈ es :=
  (List.takeWhile_sublist _).subset h

theorem mem_of_mem_split_snd {es : List ListEntry} {key : Nat} {e : ListEntry}
    (h : e ∈ (entriesSplit es key).2) : e ∈ es :=
  (List.dropWhile_sublist _).subset h

theorem head_split_snd_not_lt {es : List ListEntry} {key : Nat} {e : ListEntry}
    {rest : List ListEntry} (h : (entriesSplit es key).2 = e :: rest) : ¬ e.row < key := by
  induction es with
  | nil => simp [entriesSplit] at h
  | cons a as ih =>
    by_cases ha : a.row < key
    · refine ih ?_
      simpa [entriesSplit, List.dropWhile_cons, ha] using h
    · have heq : (entriesSplit (a :: as) key).2 = a :: as := by
        simp [entriesSplit, List.dropWhile_cons, ha]
      rw [heq] at h
      injection h with h1 h2
      rw [← h1]
      exact ha

theorem mem_split_snd_ge {es : List ListEntry} {key : Nat} (hs : EntriesSorted es) :
    ∀ e ∈ (entriesSplit es key).2, key ≤ e.row := by
  induction es with
  | nil => intro e he; simp [entriesSplit] at he
  | cons a as ih =>
    intro e he
    rcases List.pairwise_cons.mp hs with ⟨hhead, htail⟩
    by_cases ha : a.row < key
    · refine ih htail e ?_
      simpa [entriesSplit, List.dropWhile_cons, ha] using he
    · have heq : (entriesSplit (a :: as) key).2 = a :: as := by
        simp [entriesSplit, List.dropWhile_cons, ha]
      rw [heq] at he
      rcases List.mem_cons.mp he with rfl | he'
      · omega
      · have := hhead e he'
        omega

/-- If `x ∈ es` and `es` is sorted, the suffix of the split at `x.row` starts
with `x`. -/
theorem split_snd_head_of_mem {es : List ListEntry} {x : ListEntry}
    (hs : EntriesSorted es) (hmem : x ∈ es) :
    ∃ rest, (entriesSplit es x.row).2 = x :: rest := by
  induction es with
  | nil => simp at hmem
  | cons a as ih =>
    rcases List.pairwise_cons.mp hs with ⟨hhead, htail⟩
    rcases List.mem_cons.mp hmem with rfl | hmem'
    · refine ⟨as, ?_⟩
      simp [entriesSplit, List.dropWhile_cons]
    · have hax : a.row < x.row := hhead x hmem'
      obtain ⟨rest, hrest⟩ := ih htail hmem'
      refine ⟨rest, ?_⟩
      simpa [entriesSplit, List.dropWhile_cons, hax] using hrest

/-- A sorted registry without an entry at `key` (as witnessed by the split's
suffix) has no entry with row `key` anywhere. -/
theorem row_not_found {es : List ListEntry} (hs : EntriesSorted es) {key : Nat}
    (hnf : ∀ e rest, (entriesSplit es key).2 = e :: rest → e.row ≠ key) :
    ∀ e ∈ es, e.row ≠ key := by
  intro e he heq
  obtain ⟨rest, hrest⟩ := split_snd_head_of_mem hs he
  rw [heq] at hrest
  exact hnf e rest hrest heq

theorem entriesSorted_middle {A B : List ListEntry} {x : ListEntry}
    (hA : EntriesSorted A) (hB : EntriesSorted B)
    (hAx : ∀ a ∈ A, a.row < x.row) (hxB : ∀ b ∈ B, x.row < b.row)
    (hAB : ∀ a ∈ A, ∀ b ∈ B, a.row < b.row) :
    EntriesSorted (A ++ x :: B) := by
  rw [EntriesSorted, List.pairwise_append]
  refine ⟨hA, ?_, ?_⟩
  · rw [List.pairwise_cons]
    exact ⟨hxB, hB⟩
  · intro a ha b hb
    rcases List.mem_cons.mp hb with rfl | hb'
    · exact hAx a ha
    · exact hAB a ha b hb'

theorem entriesSorted_map_add {es : List ListEntry} (k : Nat) (hs : EntriesSorted es) :
    EntriesSorted (es.map (fun e => { e with row := e.row + k })) := by
  refine hs.map _ ?_
  intro a b hab
  show a.row + k < b.row + k
  omega

theorem entriesSorted_map_rowPreserving {es : List ListEntry} {f : ListEntry → ListEntry}
    (hf : ∀ e, (f e).row = e.row) (hs : EntriesSorted es) : EntriesSorted (es.map f) := by
  refine hs.map _ ?_
  intro a b hab
  rw [show (f a).row = a.row from hf a, show (f b).row = b.row from hf b]
  exact hab

theorem entriesSorted_map_sub {es : List ListEntry} {k lo : Nat} (hs : EntriesSorted es)
    (hlo : ∀ e ∈ es, lo ≤ e.row) (hk : k ≤ lo) :
    EntriesSorted (es.map (fun e => { e with row := e.row - k })) := by
  induction es with
  | nil => exact List.Pairwise.nil
  | cons a as ih =>
    rw [List.map_cons]
    rcases List.pairwise_cons.mp hs with ⟨hhead, htail⟩
    refine List.pairwise_cons.mpr ⟨?_, ih htail (fun e he => hlo e (List.mem_cons_of_mem _ he))⟩
    intro b hb
    obtain ⟨c, hc, rfl⟩ := List.mem_map.mp hb
    have h1 := hhead c hc
    have h2 := hlo a (by simp)
    show a.row - k < c.row - k
    omega

theorem prune_sorted {ca : ColumnAccessors} (h : RegInv ca) :
    EntriesSorted (pruneTombstones ca).entries := by
  rw [pruneTombstones]
  split
  · exact h.1.sublist (List.filter_sublist _)
  · exact h.1

theorem prune_live {ca : ColumnAccessors} (h : RegInv ca) :
    ∀ e ∈ (pruneTombstones ca).entries, e.view.isSome = true := by
  rw [pruneTombstones]
  split
  next hflag =>
    intro e he
    have := List.mem_filter.mp he
    simpa using this.2
  next hflag =>
    intro e he
    refine h.2 ?_ e he
    revert hflag
    cases ca.tombstones <;> simp

theorem prune_flag {ca : ColumnAccessors} :
    (pruneTombstones ca).tombstones = false ∨ pruneTombstones ca = ca := by
  rw [pruneTombstones]
  split
  · exact Or.inl rfl
  · exact Or.inr rfl

theorem prune_flag_of_inv {ca : ColumnAccessors} (h : RegInv ca) :
    ∀ e ∈ (pruneTombstones ca).entries, e.view.isSome = true :=
  prune_live h

theorem prune_regInv {ca : ColumnAccessors} (h : RegInv ca) :
    RegInv (pruneTombstones ca) :=
  ⟨prune_sorted h, fun _ => prune_live h⟩

theorem dropView_regInv {ca : ColumnAccessors} {id : Nat} (h : RegInv ca) :
    RegInv (dropView ca id) := by
  constructor
  · refine entriesSorted_map_rowPreserving ?_ h.1
    intro e
    by_cases hv : e.view = some id <;> simp [hv]
  · intro hf
    simp [dropView] at hf

theorem discard_regInv {ca : ColumnAccessors} : RegInv (discardChildAccessors ca) := by
  constructor
  · exact List.Pairwise.nil
  · intro _ e he
    simp [discardChildAccessors] at he

theorem adjInsertRows_regInv {ca : ColumnAccessors} {r k : Nat} (h : RegInv ca) :
    RegInv (adjInsertRows true r k ca) := by
  have hp := prune_regInv h
  have hl := prune_live h
  constructor
  · show EntriesSorted ((entriesSplit (pruneTombstones ca).entries r).1
      ++ ((entriesSplit (pruneTombstones ca).entries r).2.map
            (fun e => { e with row := e.row + k })))
    rw [EntriesSorted, List.pairwise_append]
    refine ⟨split_fst_sorted hp.1, entriesSorted_map_add k (split_snd_sorted hp.1), ?_⟩
    intro a ha b hb
    obtain ⟨c, hc, rfl⟩ := List.mem_map.mp hb
    have h1 := mem_split_fst_lt ha
    have h2 := mem_split_snd_ge hp.1 c hc
    show a.row < c.row + k
    omega
  · intro _ e he
    have he' : e ∈ (entriesSplit (pruneTombstones ca).entries r).1
        ++ ((entriesSplit (pruneTombstones ca).entries r).2.map
              (fun e => { e with row := e.row + k })) := he
    rcases List.mem_append.mp he' with h1 | h2
    · exact hl _ (mem_of_mem_split_fst h1)
    · obtain ⟨c, hc, rfl⟩ := List.mem_map.mp h2
      simpa using hl c (mem_of_mem_split_snd hc)

theorem adjEraseRows_regInv {ca : ColumnAccessors} {r k : Nat} (h : RegInv ca) :
    RegInv (adjEraseRows true r k ca) := by
  have hp := prune_regInv h
  have hl := prune_live h
  have hrest : EntriesSorted (entriesSplit (pruneTombstones ca).entries r).2 :=
    split_snd_sorted hp.1
  constructor
  · show EntriesSorted ((entriesSplit (pruneTombstones ca).entries r).1
      ++ ((entriesSplit (entriesSplit (pruneTombstones ca).entries r).2 (r + k)).2.map
            (fun e => { e with row := e.row - k })))
    rw [EntriesSorted, List.pairwise_append]
    refine ⟨split_fst_sorted hp.1, ?_, ?_⟩
    · exact entriesSorted_map_sub (split_snd_sorted hrest)
        (fun e he => mem_split_snd_ge hrest e he) (by omega)
    · intro a ha b hb
      obtain ⟨c, hc, rfl⟩ := List.mem_map.mp hb
      have h1 := mem_split_fst_lt ha
      have h2 := mem_split_snd_ge hrest c hc
      show a.row < c.row - k
      omega
  · intro _ e he
    have he' : e ∈ (entriesSplit (pruneTombstones ca).entries r).1
        ++ ((entriesSplit (entriesSplit (pruneTombstones ca).entries r).2 (r + k)).2.map
              (fun e => { e with row := e.row - k })) := he
    rcases List.mem_append.mp he' with h1 | h2
    · exact hl _ (mem_of_mem_split_fst h1)
    · obtain ⟨c, hc, rfl⟩ := List.mem_map.mp h2
      simpa using hl c (mem_of_mem_split_snd (mem_of_mem_split_snd hc))

/-- Inserting a live entry at its sorted position into a live sorted registry
that has no entry with that row yields a valid registry. -/
theorem regInv_insert_sorted {es : List ListEntry} {r : Nat} {v : Option Nat}
    {vs : List (Nat × Nat)} {tb : Bool}
    (hs : EntriesSorted es)
    (hnor : ∀ e ∈ es, e.row ≠ r)
    (hlive : ∀ e ∈ es, e.view.isSome = true)
    (hv : v.isSome = true) :
    RegInv ⟨(entriesSplit es r).1 ++ { row := r, view := v } :: (entriesSplit es r).2,
      vs, tb⟩ := by
  constructor
  · refine entriesSorted_middle (split_fst_sorted hs) (split_snd_sorted hs) ?_ ?_ ?_
    · intro a ha
      exact mem_split_fst_lt ha
    · intro b hb
      have h1 := mem_split_snd_ge hs b hb
      have h2 := hnor b (mem_of_mem_split_snd hb)
      show r < b.row
      omega
    · intro a ha b hb
      have h1 := mem_split_fst_lt ha
      have h2 := mem_split_snd_ge hs b hb
      omega
  · intro _ e he
    rcases List.mem_append.mp he with h1 | h2
    · exact hlive _ (mem_of_mem_split_fst h1)
    · rcases List.mem_cons.mp h2 with rfl | h3
      · exact hv
      · exact hlive _ (mem_of_mem_split_snd h3)

/-- When the lock-checking lookup fails on a live sorted registry, no entry
has that row at all. -/
theorem find_none_no_row {es : List ListEntry} (hs : EntriesSorted es)
    (hlive : ∀ e ∈ es, e.view.isSome = true) {r : Nat}
    (hnf : (match (entriesSplit es r).2 with
            | e :: _ => if e.row = r ∧ e.view.isSome then e.view else none
            | [] => none) = none) :
    ∀ e ∈ es, e.row ≠ r := by
  refine row_not_found hs ?_
  intro e rest hrest heq
  rw [hrest] at hnf
  have hsome : e.view.isSome = true :=
    hlive e (mem_of_mem_split_snd (show e ∈ (entriesSplit es r).2 by
      rw [hrest]; exact List.mem_cons_self _ _))
  have hnf' : (if e.row = r ∧ e.view.isSome then e.view else none) = none := hnf
  rw [if_pos ⟨heq, by simpa using hsome⟩] at hnf'
  rw [hnf'] at hsome
  simp at hsome

theorem adjSwap_regInv {ca : ColumnAccessors} {r1 r2 : Nat} (h : RegInv ca) :
    RegInv (adjSwap true r1 r2 ca) := by
  have hp := prune_regInv h
  have hl := prune_live h
  rw [adjSwap]
  split
  next id1 id2 h1 h2 =>
    constructor
    · refine entriesSorted_map_rowPreserving ?_ hp.1
      intro e
      by_cases e1 : e.row = r1
      · simp [e1]
      · by_cases e2 : e.row = r2
        · have hne : ¬ r2 = r1 := fun hh => e1 (by rw [e2, hh])
          simp [e1, e2, hne]
        · simp [e1, e2]
    · intro _ e he
      obtain ⟨c, hc, rfl⟩ := List.mem_map.mp he
      by_cases c1 : c.row = r1
      · simp [c1]
      · by_cases c2 : c.row = r2
        · have hne : ¬ r2 = r1 := fun hh => c1 (by rw [c2, hh])
          simp [c1, c2, hne]
        · simpa [c1, c2] using hl c hc
  next id1 h1 h2 =>
    have hnor : ∀ e ∈ (pruneTombstones ca).entries, e.row ≠ r2 :=
      find_none_no_row hp.1 hl h2
    refine regInv_insert_sorted ?_ ?_ ?_ rfl
    · exact hp.1.sublist (List.filter_sublist _)
    · intro e he
      exact hnor e (List.mem_of_mem_filter he)
    · intro e he
      exact hl e (List.mem_of_mem_filter he)
  next id2 h1 h2 =>
    have hnor : ∀ e ∈ (pruneTombstones ca).entries, e.row ≠ r1 :=
      find_none_no_row hp.1 hl h1
    refine regInv_insert_sorted ?_ ?_ ?_ rfl
    · exact hp.1.sublist (List.filter_sublist _)
    · intro e he
      exact hnor e (List.mem_of_mem_filter he)
    · intro e he
      exact hl e (List.mem_of_mem_filter he)
  next h1 h2 =>
    exact hp

theorem moveOver_tombstone_regInv {es : List ListEntry} (hs : EntriesSorted es) (t : Nat)
    (vs : List (Nat × Nat)) :
    RegInv ⟨es.map (fun e => if e.row = t then { e with view := none } else e), vs, true⟩ := by
  constructor
  · refine entriesSorted_map_rowPreserving ?_ hs
    intro e
    by_cases he : e.row = t <;> simp [he]
  · intro hf
    simp at hf

theorem moveOverClearTo_cases {ca : ColumnAccessors} (t : Nat)
    (hs : EntriesSorted ca.entries) :
    ((moveOverClearTo t ca).2 = false ∧ (moveOverClearTo t ca).1 = ca
       ∧ ∀ e ∈ ca.entries, e.row ≠ t)
  ∨ ((moveOverClearTo t ca).2 = true ∧ (moveOverClearTo t ca).1.tombstones = true
       ∧ EntriesSorted (moveOverClearTo t ca).1.entries) := by
  rw [moveOverClearTo]
  split
  next eTo tail heq =>
    by_cases het : eTo.row = t
    · right
      rw [if_pos het]
      refine ⟨rfl, rfl, ?_⟩
      exact entriesSorted_map_rowPreserving
        (fun e => by by_cases he : e.row = t <;> simp [he]) hs
    · left
      rw [if_neg het]
      refine ⟨rfl, rfl, ?_⟩
      refine row_not_found hs ?_
      intro e rest hrest
      rw [heq] at hrest
      injection hrest with h1 h2
      rw [← h1]
      exact het
  next heq =>
    left
    refine ⟨rfl, rfl, ?_⟩
    refine row_not_found hs ?_
    intro e rest hrest
    rw [heq] at hrest
    cases hrest

theorem moveOverRelocate_regInv_map {ca1 : ColumnAccessors} {f t : Nat}
    (hs : EntriesSorted ca1.entries) (htb : ca1.tombstones = true) :
    RegInv (moveOverRelocate true f t true ca1) := by
  have hreg : RegInv ca1 := ⟨hs, fun hfa => by rw [htb] at hfa; cases hfa⟩
  simp only [moveOverRelocate]
  split
  next eF tail heq =>
    by_cases hef : eF.row = f
    · rw [if_pos hef, if_pos trivial]
      refine ⟨?_, ?_⟩
      · refine entriesSorted_map_rowPreserving ?_ hs
        intro e
        by_cases e1 : e.row = t
        · simp [e1]
        · by_cases e2 : e.row = f
          · by_cases hft : f = t <;> simp [e1, e2, hft]
          · simp [e1, e2]
      · intro hfa
        rw [htb] at hfa
        cases hfa
    · rw [if_neg hef]
      exact hreg
  next heq => exact hreg

theorem moveOverRelocate_regInv_rotate {ca1 : ColumnAccessors} {f t : Nat}
    (h1 : RegInv ca1)
    (hlive : ∀ e ∈ ca1.entries, e.view.isSome = true)
    (hnor : ∀ e ∈ ca1.entries, e.row ≠ t) :
    RegInv (moveOverRelocate true f t false ca1) := by
  simp only [moveOverRelocate]
  split
  next eF tail heq =>
    by_cases hef : eF.row = f
    · rw [if_pos hef, if_neg Bool.false_ne_true]
      refine regInv_insert_sorted ?_ ?_ ?_ ?_
      · exact h1.1.sublist (List.filter_sublist _)
      · intro e he
        exact hnor e (List.mem_of_mem_filter he)
      · intro e he
        exact hlive e (List.mem_of_mem_filter he)
      · refine hlive eF (mem_of_mem_split_snd (show eF ∈ (entriesSplit ca1.entries f).2 by
          rw [heq]; exact List.mem_cons_self _ _))
    · rw [if_neg hef]
      exact h1
  next heq => exact h1

theorem adjMoveOver_regInv {ca : ColumnAccessors} {f t : Nat} (h : RegInv ca) :
    RegInv (adjMoveOver true f t ca) := by
  have hp := prune_regInv h
  have hl := prune_live h
  rw [adjMoveOver]
  by_cases hft : f = t
  · rw [if_pos hft]
    rcases moveOverClearTo_cases t hp.1 with ⟨h2, h1, hnor⟩ | ⟨h2, htb, hsort⟩
    · rw [h1]
      exact hp
    · exact ⟨hsort, fun hfa => by rw [htb] at hfa; cases hfa⟩
  · rw [if_neg hft]
    rcases moveOverClearTo_cases t hp.1 with ⟨h2, h1, hnor⟩ | ⟨h2, htb, hsort⟩
    · rw [h2, h1]
      exact moveOverRelocate_regInv_rotate hp hl hnor
    · rw [h2]
      exact moveOverRelocate_regInv_map hsort htb

theorem getPtrFallback_regInv {ca : ColumnAccessors} {r id : Nat} (h : RegInv ca)
    (hsuf : ∀ b ∈ (entriesSplit ca.entries r).2, r < b.row) :
    RegInv (getPtrFallback r id ca (entriesSplit ca.entries r).1
      (entriesSplit ca.entries r).2).2 := by
  have hpreS : EntriesSorted (entriesSplit ca.entries r).1 := split_fst_sorted h.1
  have hsufS : EntriesSorted (entriesSplit ca.entries r).2 := split_snd_sorted h.1
  have hpreLt : ∀ a ∈ (entriesSplit ca.entries r).1, a.row < r :=
    fun a ha => mem_split_fst_lt ha
  have hmid : EntriesSorted ((entriesSplit ca.entries r).1
      ++ { row := r, view := some id } :: (entriesSplit ca.entries r).2) := by
    refine entriesSorted_middle hpreS hsufS hpreLt hsuf ?_
    intro a ha b hb
    exact Nat.lt_trans (hpreLt a ha) (hsuf b hb)
  have hlive2 : ca.tombstones = false →
      ∀ e ∈ (entriesSplit ca.entries r).1 ++ { row := r, view := some id }
        :: (entriesSplit ca.entries r).2, e.view.isSome = true := by
    intro hf2 e he
    rcases List.mem_append.mp he with hpe | hse
    · exact h.2 hf2 e (mem_of_mem_split_fst hpe)
    · rcases List.mem_cons.mp hse with rfl | hse2
      · rfl
      · exact h.2 hf2 e (mem_of_mem_split_snd hse2)
  rw [getPtrFallback]
  split
  next p hlast =>
    by_cases hpv : p.view = none
    · rw [if_pos hpv]
      refine ⟨?_, ?_⟩
      · refine entriesSorted_middle (hpreS.sublist (List.dropLast_sublist _)) hsufS ?_ hsuf ?_
        · intro a ha
          exact hpreLt a ((List.dropLast_sublist _).subset ha)
        · intro a ha b hb
          exact Nat.lt_trans (hpreLt a ((List.dropLast_sublist _).subset ha)) (hsuf b hb)
      · intro hf2 e he
        rcases List.mem_append.mp he with hpe | hse
        · exact h.2 hf2 e (mem_of_mem_split_fst ((List.dropLast_sublist _).subset hpe))
        · rcases List.mem_cons.mp hse with rfl | hse2
          · rfl
          · exact h.2 hf2 e (mem_of_mem_split_snd hse2)
    · rw [if_neg hpv]
      exact ⟨hmid, hlive2⟩
  next hlast => exact ⟨hmid, hlive2⟩

theorem getPtr_regInv {ca : ColumnAccessors} {r id : Nat} (h : RegInv ca) :
    RegInv (getPtr r id ca).2 := by
  simp only [getPtr]
  split
  next e rest hsuf =>
    have hsufS : EntriesSorted (entriesSplit ca.entries r).2 := split_snd_sorted h.1
    rw [hsuf] at hsufS
    have hhead : ∀ b ∈ rest, e.row < b.row := (List.pairwise_cons.mp hsufS).1
    have hge : r ≤ e.row := Nat.le_of_not_lt (head_split_snd_not_lt hsuf)
    by_cases h1 : e.row = r ∧ e.view.isSome = true
    · rw [if_pos h1]
      exact h
    · rw [if_neg h1]
      by_cases h2 : e.view = none
      · rw [if_pos h2]
        refine ⟨?_, ?_⟩
        · refine entriesSorted_middle (split_fst_sorted h.1)
            (List.pairwise_cons.mp hsufS).2 (fun a ha => mem_split_fst_lt ha) ?_ ?_
          · intro b hb
            exact Nat.lt_of_le_of_lt hge (hhead b hb)
          · intro a ha b hb
            exact Nat.lt_trans (mem_split_fst_lt ha) (Nat.lt_of_le_of_lt hge (hhead b hb))
        · intro hf2 x hx
          rcases List.mem_append.mp hx with hpe | hse
          · exact h.2 hf2 x (mem_of_mem_split_fst hpe)
          · rcases List.mem_cons.mp hse with rfl | hse2
            · rfl
            · refine h.2 hf2 x (mem_of_mem_split_snd (show x ∈ (entriesSplit ca.entries r).2 by
                rw [hsuf]; exact List.mem_cons_of_mem _ hse2))
      · rw [if_neg h2]
        refine getPtrFallback_regInv h ?_
        intro b hb
        rw [hsuf] at hb
        rcases List.mem_cons.mp hb with rfl | hb2
        · have hbs : b.view.isSome = true := Option.ne_none_iff_isSome.mp h2
          have hne : ¬ b.row = r := fun hr => h1 ⟨hr, hbs⟩
          exact Nat.lt_of_le_of_ne hge (fun hr => hne hr.symm)
        · exact Nat.lt_of_le_of_lt hge (hhead b hb2)
  next hsuf =>
    refine getPtrFallback_regInv h ?_
    intro b hb
    rw [hsuf] at hb
    cases hb

theorem lookup_setViewRow_ne {vs : List (Nat × Nat)} {id vid r : Nat} (h : vid ≠ id) :
    (setViewRow vs id r).lookup vid = vs.lookup vid := by
  induction vs with
  | nil => rfl
  | cons p ps ih =>
    obtain ⟨a, b⟩ := p
    rw [setViewRow, List.map_cons]
    by_cases hp : a = id
    · have h1 : ((a, b).1 = id) := hp
      rw [if_pos h1]
      have h2 : (vid == id) = false := by simp [h]
      have h3 : (vid == a) = false := by simp [hp ▸ h]
      simp only [List.lookup, h2, h3]
      exact ih
    · rw [if_neg (show ¬ ((a, b).1 = id) from hp)]
      simp only [List.lookup]
      cases hvp : (vid == a) with
      | true => rfl
      | false => exact ih

theorem lookup_setViewRow_self {vs : List (Nat × Nat)} {id r r0 : Nat}
    (h : vs.lookup id = some r0) :
    (setViewRow vs id r).lookup id = some r := by
  induction vs with
  | nil => cases h
  | cons p ps ih =>
    obtain ⟨a, b⟩ := p
    rw [setViewRow, List.map_cons]
    by_cases hp : a = id
    · rw [if_pos (show (a, b).1 = id from hp)]
      have h2 : (id == id) = true := by simp
      simp only [List.lookup, h2]
    · rw [if_neg (show ¬ ((a, b).1 = id) from hp)]
      have h2 : (id == a) = false := by
        refine Bool.eq_false_iff.mpr ?_
        intro hq
        exact hp (eq_of_beq hq).symm
      simp only [List.lookup, h2] at h ⊢
      exact ih h

theorem foldl_setView_preserve {L : List ListEntry} {vs : List (Nat × Nat)} {vid k : Nat}
    (hnot : ∀ e ∈ L, e.view ≠ some vid) :
    (L.foldl (fun acc e =>
      match e.view with
      | some id => setViewRow acc id (e.row + k)
      | none => acc) vs).lookup vid = vs.lookup vid := by
  induction L generalizing vs with
  | nil => rfl
  | cons a L ih =>
    rw [List.foldl_cons]
    rw [ih (fun e he => hnot e (List.mem_cons_of_mem _ he))]
    cases hv : a.view with
    | none => rfl
    | some id =>
      have hne : vid ≠ id := fun hh => hnot a (List.mem_cons_self _ _) (by rw [hv, hh])
      exact lookup_setViewRow_ne hne

theorem prune_viewRows (ca : ColumnAccessors) :
    (pruneTombstones ca).viewRows = ca.viewRows := by
  rw [pruneTombstones]
  split <;> rfl

theorem prune_mem_of_live {ca : ColumnAccessors} {e : ListEntry}
    (hm : e ∈ ca.entries) (hv : e.view.isSome = true) :
    e ∈ (pruneTombstones ca).entries := by
  rw [pruneTombstones]
  split
  · exact List.mem_filter.mpr ⟨hm, by simp [hv]⟩
  · exact hm

theorem prune_entries_subset {ca : ColumnAccessors} {e : ListEntry}
    (hm : e ∈ (pruneTombstones ca).entries) : e ∈ ca.entries := by
  rw [pruneTombstones] at hm
  split at hm
  · exact List.mem_of_mem_filter hm
  · exact hm

theorem mem_split_snd_of_not_lt {es : List ListEntry} {key : Nat} {e : ListEntry}
    (hm : e ∈ es) (hge : ¬ e.row < key) : e ∈ (entriesSplit es key).2 := by
  have := entriesSplit_append es key
  rw [← this] at hm
  rcases List.mem_append.mp hm with hpe | hse
  · exact absurd (mem_split_fst_lt hpe) hge
  · exact hse

/-- C9: after every mutator of the link-list column's accessor registry — row
insertion, row erasure, move-last-over, row swap, table clear, the accessor
lookup `get_ptr`, destruction of a view handle and tombstone pruning — the
registry stays strictly sorted by origin row index (which rules out two
entries sharing a row, tombstones included), and the registry invariant — no
expired entry while the tombstone flag is clear — is preserved. -/
theorem C9_registry_sorted_unique (op : RegOp) {ca : ColumnAccessors} (h : RegInv ca) :
    EntriesSorted (applyRegOp ca op).entries ∧ RegInv (applyRegOp ca op) := by
  have hres : RegInv (applyRegOp ca op) := by
    cases op with
    | insertRows r k => exact adjInsertRows_regInv h
    | eraseRows r k => exact adjEraseRows_regInv h
    | moveOver f t => exact adjMoveOver_regInv h
    | swapRows a b => exact adjSwap_regInv h
    | clearTable => exact discard_regInv
    | lookup r id => exact getPtr_regInv h
    | viewDestroyed id => exact dropView_regInv h
    | prune => exact prune_regInv h
  exact ⟨hres.1, hres⟩

theorem C9_registry_sorted_unique_witness :
    RegInv regDemo ∧
      (EntriesSorted (applyRegOp regDemo (RegOp.moveOver 7 2)).entries
        ∧ RegInv (applyRegOp regDemo (RegOp.moveOver 7 2))) :=
  ⟨by unfold RegInv EntriesSorted; decide,
   C9_registry_sorted_unique (RegOp.moveOver 7 2)
     (by unfold RegInv EntriesSorted; decide)⟩

/-- C7: hold the live view `vid` for origin row `r` of the column (the
registry records it once, and its origin-row map points back at `r`).  After
`adj_insert_rows` inserts `k` rows at an index at or below `r`: the same
handle `vid` sits in the registry under row `r + k`; the view's origin row —
what `origin_row()` returns after `set_origin_row_index` — equals `r + k`;
and `get_ptr` at row `r + k` returns the identical handle `vid` without
touching the registry. -/
theorem C7_view_identity_stable {ca : ColumnAccessors} (r vid insAt k fresh : Nat)
    (h : RegInv ca)
    (hmem : ({ row := r, view := some vid } : ListEntry) ∈ ca.entries)
    (huniq : ∀ e ∈ ca.entries, e.view = some vid → e = { row := r, view := some vid })
    (hlook : ca.viewRows.lookup vid = some r)
    (hins : insAt ≤ r) :
    ({ row := r + k, view := some vid } : ListEntry) ∈ (adjInsertRows true insAt k ca).entries
    ∧ (adjInsertRows true insAt k ca).viewRows.lookup vid = some (r + k)
    ∧ getPtr (r + k) fresh (adjInsertRows true insAt k ca)
        = (vid, adjInsertRows true insAt k ca) := by
  have hpm : ({ row := r, view := some vid } : ListEntry) ∈ (pruneTombstones ca).entries :=
    prune_mem_of_live hmem rfl
  have hsuf0 : ({ row := r, view := some vid } : ListEntry)
      ∈ (entriesSplit (pruneTombstones ca).entries insAt).2 :=
    mem_split_snd_of_not_lt hpm (by simp; omega)
  obtain ⟨s, t2, hst⟩ := List.append_of_mem hsuf0
  have hsufS : EntriesSorted (entriesSplit (pruneTombstones ca).entries insAt).2 :=
    split_snd_sorted (prune_sorted h)
  rw [hst] at hsufS
  obtain ⟨hS, hT, hcross⟩ := List.pairwise_append.mp hsufS
  have hnot_s : ∀ e ∈ s, e.view ≠ some vid := by
    intro e he hv
    have he0 := huniq e (prune_entries_subset (mem_of_mem_split_snd
      (by rw [hst]; exact List.mem_append_left _ he))) hv
    have := hcross e he _ (List.mem_cons_self _ _)
    rw [he0] at this
    exact Nat.lt_irrefl _ this
  have hnot_t : ∀ e ∈ t2, e.view ≠ some vid := by
    intro e he hv
    have he0 := huniq e (prune_entries_subset (mem_of_mem_split_snd
      (by rw [hst]; exact List.mem_append_right _ (List.mem_cons_of_mem _ he)))) hv
    have := (List.pairwise_cons.mp hT).1 e he
    rw [he0] at this
    exact Nat.lt_irrefl _ this
  have hc1 : ({ row := r + k, view := some vid } : ListEntry)
      ∈ (adjInsertRows true insAt k ca).entries := by
    simp only [adjInsertRows]
    refine List.mem_append_right _ ?_
    exact List.mem_map.mpr ⟨{ row := r, view := some vid }, hsuf0, rfl⟩
  have hc2 : (adjInsertRows true insAt k ca).viewRows.lookup vid = some (r + k) := by
    simp only [adjInsertRows, if_pos trivial]
    rw [hst, List.foldl_append, List.foldl_cons]
    rw [foldl_setView_preserve hnot_t]
    have hmid : (List.foldl (fun acc e =>
        match e.view with
        | some id => setViewRow acc id (e.row + k)
        | none => acc) (pruneTombstones ca).viewRows s).lookup vid = some r := by
      rw [foldl_setView_preserve hnot_s, prune_viewRows]
      exact hlook
    exact lookup_setViewRow_self hmid
  refine ⟨hc1, hc2, ?_⟩
  have hsorted2 : EntriesSorted (adjInsertRows true insAt k ca).entries :=
    (adjInsertRows_regInv h).1
  obtain ⟨rest, hr⟩ := split_snd_head_of_mem hsorted2 hc1
  have hr2 : (entriesSplit (adjInsertRows true insAt k ca).entries (r + k)).2
      = { row := r + k, view := some vid } :: rest := hr
  simp only [getPtr, hr2]
  simp

theorem C7_view_identity_stable_witness :
    (RegInv c7Demo
      ∧ ({ row := 10, view := some 1 } : ListEntry) ∈ c7Demo.entries
      ∧ c7Demo.viewRows.lookup 1 = some 10
      ∧ 5 ≤ 10)
    ∧ (({ row := 13, view := some 1 } : ListEntry) ∈ (adjInsertRows true 5 3 c7Demo).entries
      ∧ (adjInsertRows true 5 3 c7Demo).viewRows.lookup 1 = some 13
      ∧ getPtr 13 99 (adjInsertRows true 5 3 c7Demo)
          = (1, adjInsertRows true 5 3 c7Demo)) :=
  ⟨⟨by unfold RegInv EntriesSorted; decide, by decide, by decide, by decide⟩,
   C7_view_identity_stable 10 1 5 3 99
     (by unfold RegInv EntriesSorted; decide) (by decide) (by decide) (by decide) (by decide)⟩

end RealmLink
